import Mathlib

/-!
Verification of the block-structured growable arrays of
`src/cbits/souffle/PiggyList.h` (`souffle::PiggyList` and
`souffle::RandomInsertPiggyList`).

The C++ code is shallowly embedded as follows:
* `size_t` arithmetic is `Nat` truncated by `mod64`; the C `int` arithmetic of
  the mask `(1 << blockNum) - 1` is `Nat` truncated by `mod32` and then
  sign-extended to `size_t` by `intToSizeT`.
* heap allocation (`new T[n]`) is an explicit `Heap` of blocks, addressed by
  allocation order; `delete[]` marks an address unallocated.  Reads of
  unallocated or out-of-range cells (undefined behaviour in the source)
  return `none`; such writes leave the heap unchanged.
* both containers hold a block-lookup table mapping slot numbers to heap
  addresses (`none` is the null pointer).
-/

namespace Souffle

/-- Truncation to a 64-bit machine word: `size_t` arithmetic. -/
def mod64 (n : Nat) : Nat := n % 2 ^ 64

/-- Truncation to a 32-bit machine word: the bit pattern of a C `int`. -/
def mod32 (n : Nat) : Nat := n % 2 ^ 32

/-- Model of `__builtin_clzll` (see the MSVC shim at lines 15-22 of the
source: `_BitScanReverse64` finds the index of the highest set bit, and the
result is `63 - msb`, or `64` when the input is zero). -/
def builtin_clzll (v : Nat) : Nat := if v = 0 then 64 else 63 - Nat.log2 v

/-- Conversion of a 32-bit `int` bit pattern to `size_t`: sign extension
(the value of the `int`, taken mod `2 ^ 64`). -/
def intToSizeT (p : Nat) : Nat := if p < 2 ^ 31 then p else p + (2 ^ 64 - 2 ^ 32)

/-- The index-to-location map shared by `RandomInsertPiggyList::get`
(lines 80-85) and `PiggyList::get` (lines 232-238):
`nindex = index + BLOCKSIZE`, `blockNum = 63 - __builtin_clzll(nindex)`,
`blockInd = nindex & ((1 << blockNum) - 1)`, block-table slot
`blockNum - BLOCKBITS`.  The literal `1` in `(1 << blockNum) - 1` has C type
`int`, so that mask is computed in 32-bit arithmetic and sign-extended back
to `size_t`; a shift count of 32 or more is undefined behaviour in C++ and is
modelled here as the shifted value truncated mod `2 ^ 32`. -/
def getLoc (BLOCKBITS index : Nat) : Nat × Nat :=
  let BLOCKSIZE := mod64 (1 <<< BLOCKBITS)
  let nindex := mod64 (index + BLOCKSIZE)
  let blockNum := mod64 (63 + 2 ^ 64 - builtin_clzll nindex)
  let mask := intToSizeT (mod32 (mod32 (1 <<< blockNum) + (2 ^ 32 - 1)))
  let blockInd := nindex &&& mask
  (mod64 (blockNum + 2 ^ 64 - BLOCKBITS), blockInd)

/-- One heap-allocated array of elements (`new T[len]`); cells that have not
been assigned yet are indeterminate (`none`). -/
structure Block (T : Type) where
  len : Nat
  cells : Nat → Option T

/-- A heap of allocated blocks.  Addresses are allocation order; `mem a = none`
means address `a` is unallocated (or freed). -/
structure Heap (T : Type) where
  mem : Nat → Option (Block T)
  next : Nat

/-- The empty heap. -/
def Heap.empty (T : Type) : Heap T := ⟨fun _ => none, 0⟩

/-- Allocate a fresh block of length `len` whose cells are given by `cells`
(used to model `new T[len]` immediately followed by a `memcpy`). -/
def Heap.allocWith {T : Type} (h : Heap T) (len : Nat) (cells : Nat → Option T) :
    Heap T × Nat :=
  (⟨Function.update h.mem h.next (some ⟨len, cells⟩), h.next + 1⟩, h.next)

/-- `new T[len]` with default (indeterminate) contents. -/
def Heap.alloc {T : Type} (h : Heap T) (len : Nat) : Heap T × Nat :=
  h.allocWith len (fun _ => none)

/-- Free the block at address `a` (`delete[]`). -/
def Heap.free {T : Type} (h : Heap T) (a : Nat) : Heap T :=
  ⟨Function.update h.mem a none, h.next⟩

/-- Read the element at logical `index` through a block-lookup table:
the common body of the two `get` member functions.  Dereferencing a null
slot or reading past a block's length is undefined behaviour in the source,
modelled as `none`. -/
def readCell {T : Type} (h : Heap T) (tbl : Nat → Option Nat) (bb index : Nat) :
    Option T :=
  let loc := getLoc bb index
  match tbl loc.1 with
  | none => none
  | some a =>
    match h.mem a with
    | none => none
    | some b => if loc.2 < b.len then b.cells loc.2 else none

/-- Write `value` at logical `index` through a block-lookup table: the store
`this->get(index) = value`.  A write through a null slot or past a block's
length is undefined behaviour in the source, modelled as a no-op. -/
def writeCell {T : Type} (h : Heap T) (tbl : Nat → Option Nat) (bb index : Nat)
    (value : T) : Heap T :=
  let loc := getLoc bb index
  match tbl loc.1 with
  | none => h
  | some a =>
    match h.mem a with
    | none => h
    | some b =>
      if loc.2 < b.len then
        ⟨Function.update h.mem a (some ⟨b.len, Function.update b.cells loc.2 (some value)⟩),
          h.next⟩
      else h

/-! ## `souffle::PiggyList` (lines 139-325) -/

/-- The state of a `PiggyList` apart from the heap it owns blocks in.
`blockLookupTable` maps block-table slots to heap addresses (`none` = null). -/
structure PiggyList (T : Type) where
  BLOCKBITS : Nat
  num_containers : Nat
  allocsize : Nat
  container_size : Nat
  m_size : Nat
  blockLookupTable : Nat → Option Nat

/-- `BLOCKSIZE = (1ul << BLOCKBITS)` (line 299). -/
def PiggyList.BLOCKSIZE {T : Type} (st : PiggyList T) : Nat :=
  mod64 (1 <<< st.BLOCKBITS)

/-- A freshly constructed `PiggyList(initialbitsize)` (lines 142-144):
no containers, zero capacity and size, `allocsize = BLOCKSIZE`. -/
def PiggyList.init (T : Type) (bb : Nat) : PiggyList T :=
  { BLOCKBITS := bb, num_containers := 0, allocsize := mod64 (1 <<< bb),
    container_size := 0, m_size := 0, blockLookupTable := fun _ => none }

/-- `PiggyList::size` (lines 178-180). -/
def PiggyList.size {T : Type} (st : PiggyList T) : Nat := st.m_size

/-- `PiggyList::get` (lines 232-238). -/
def PiggyList.get {T : Type} (st : PiggyList T) (h : Heap T) (index : Nat) :
    Option T :=
  readCell h st.blockLookupTable st.BLOCKBITS index

/-- The store `this->get(new_index) = element` of `append` (line 203). -/
def PiggyList.writeAt {T : Type} (st : PiggyList T) (h : Heap T) (index : Nat)
    (v : T) : Heap T :=
  writeCell h st.blockLookupTable st.BLOCKBITS index v

/-- One iteration of the growth loop (lines 193-199): allocate a block of
`allocsize` elements into slot `num_containers`, bump the container count and
capacity, and double `allocsize`. -/
def PiggyList.addBlock {T : Type} (st : PiggyList T) (h : Heap T) :
    Heap T × PiggyList T :=
  let al := h.alloc st.allocsize
  (al.1,
    { st with
      blockLookupTable := Function.update st.blockLookupTable st.num_containers (some al.2)
      num_containers := mod64 (st.num_containers + 1)
      container_size := mod64 (st.container_size + st.allocsize)
      allocsize := mod64 (st.allocsize <<< 1) })

/-- The growth loop `while (container_size < new_index + 1) ...` of
`append`/`createNode` (lines 190-201, 211-222), fuelled for totality: each
iteration of the C++ loop increases `container_size` by `allocsize >= 1` in
every reachable state, so `target` iterations always suffice there; the fuel
only cuts off states the C++ loop would not leave either (`allocsize = 0`). -/
def PiggyList.growToFuel {T : Type} (fuel : Nat) (h : Heap T) (st : PiggyList T)
    (target : Nat) : Heap T × PiggyList T :=
  match fuel with
  | 0 => (h, st)
  | fuel + 1 =>
    if st.container_size < target then
      let r := st.addBlock h
      PiggyList.growToFuel fuel r.1 r.2 target
    else (h, st)

/-- The growth phase of `append`/`createNode` with its natural fuel. -/
def PiggyList.growTo {T : Type} (st : PiggyList T) (h : Heap T) (target : Nat) :
    Heap T × PiggyList T :=
  PiggyList.growToFuel target h st target

/-- `PiggyList::append` (lines 186-205): reserve `new_index` by fetch-add on
`m_size`, grow until `container_size >= new_index + 1`, then write the element
at the mapped location.  Returns the new heap, state and the index. -/
def PiggyList.append {T : Type} (st : PiggyList T) (h : Heap T) (element : T) :
    Heap T × PiggyList T × Nat :=
  let new_index := st.m_size
  let st1 : PiggyList T := { st with m_size := mod64 (st.m_size + 1) }
  let g := st1.growTo h (mod64 (new_index + 1))
  (g.2.writeAt g.1 new_index element, g.2, new_index)

/-- `PiggyList::createNode` (lines 207-225): `append` without the store. -/
def PiggyList.createNode {T : Type} (st : PiggyList T) (h : Heap T) :
    Heap T × PiggyList T × Nat :=
  let new_index := st.m_size
  let st1 : PiggyList T := { st with m_size := mod64 (st.m_size + 1) }
  let g := st1.growTo h (mod64 (new_index + 1))
  (g.1, g.2, new_index)

/-- Free the blocks of table slots `0 .. n-1` (`delete[]` of a null pointer is
a no-op). -/
def freeBlocks {T : Type} (h : Heap T) (tbl : Nat → Option Nat) : Nat → Heap T
  | 0 => h
  | n + 1 =>
    let h2 := freeBlocks h tbl n
    match tbl n with
    | none => h2
    | some a => h2.free a

/-- `PiggyList::freeList` (lines 317-324): delete the first `num_containers`
blocks; the table entries themselves are left dangling. -/
def PiggyList.freeList {T : Type} (st : PiggyList T) (h : Heap T) : Heap T :=
  freeBlocks h st.blockLookupTable st.num_containers

/-- `PiggyList::clear` (lines 243-250). -/
def PiggyList.clear {T : Type} (st : PiggyList T) (h : Heap T) :
    Heap T × PiggyList T :=
  (st.freeList h,
    { st with
      m_size := 0
      num_containers := 0
      allocsize := st.BLOCKSIZE
      container_size := 0 })

/-- Sequential operations on a `PiggyList` used by the claims. -/
inductive Op (T : Type) where
  | append (v : T)
  | createNode
  | clear

/-- Run one sequential operation. -/
def PiggyList.runOp {T : Type} (s : Heap T × PiggyList T) :
    Op T → Heap T × PiggyList T
  | .append v => let r := s.2.append s.1 v; (r.1, r.2.1)
  | .createNode => let r := s.2.createNode s.1; (r.1, r.2.1)
  | .clear => s.2.clear s.1

/-- Run a list of sequential operations. -/
def PiggyList.runOps {T : Type} (s : Heap T × PiggyList T) (ops : List (Op T)) :
    Heap T × PiggyList T :=
  ops.foldl PiggyList.runOp s

/-! ## `souffle::RandomInsertPiggyList` (lines 28-137) -/

/-- The state of a `RandomInsertPiggyList` apart from the heap. -/
structure RandomInsertPiggyList (T : Type) where
  BLOCKBITS : Nat
  numElements : Nat
  blockLookupTable : Nat → Option Nat

/-- `maxContainers = 64` (line 118). -/
def RandomInsertPiggyList.maxContainers : Nat := 64

/-- `INITIALBLOCKSIZE = (1ul << BLOCKBITS)` (line 112). -/
def RandomInsertPiggyList.INITIALBLOCKSIZE {T : Type}
    (st : RandomInsertPiggyList T) : Nat :=
  mod64 (1 <<< st.BLOCKBITS)

/-- A freshly constructed `RandomInsertPiggyList(initialbitsize)` (line 39). -/
def RandomInsertPiggyList.init (T : Type) (bb : Nat) : RandomInsertPiggyList T :=
  { BLOCKBITS := bb, numElements := 0, blockLookupTable := fun _ => none }

/-- `RandomInsertPiggyList::size` (lines 72-74). -/
def RandomInsertPiggyList.size {T : Type} (st : RandomInsertPiggyList T) : Nat :=
  st.numElements

/-- `RandomInsertPiggyList::get` (lines 80-85): the same mapping as
`PiggyList::get`. -/
def RandomInsertPiggyList.get {T : Type} (st : RandomInsertPiggyList T)
    (h : Heap T) (index : Nat) : Option T :=
  readCell h st.blockLookupTable st.BLOCKBITS index

/-- The double-checked lazy allocation of `insertAt` (lines 92-99): if the
table slot `blockNum` is null, allocate a block of
`INITIALBLOCKSIZE << blockNum` elements into it. -/
def RandomInsertPiggyList.ensureBlock {T : Type} (st : RandomInsertPiggyList T)
    (h : Heap T) (blockNum : Nat) : Heap T × RandomInsertPiggyList T :=
  match st.blockLookupTable blockNum with
  | some _ => (h, st)
  | none =>
    let al := h.alloc (mod64 (st.INITIALBLOCKSIZE <<< blockNum))
    (al.1,
      { st with
        blockLookupTable := Function.update st.blockLookupTable blockNum (some al.2) })

/-- `RandomInsertPiggyList::insertAt` (lines 87-105): compute the block-table
slot for `index`, allocate that single block if absent, store the value
through the mapping, and increment `numElements` unconditionally. -/
def RandomInsertPiggyList.insertAt {T : Type} (st : RandomInsertPiggyList T)
    (h : Heap T) (index : Nat) (value : T) : Heap T × RandomInsertPiggyList T :=
  let blockNum :=
    mod64 (mod64 (63 + 2 ^ 64 - builtin_clzll (mod64 (index + st.INITIALBLOCKSIZE)))
      + 2 ^ 64 - st.BLOCKBITS)
  let alloced := st.ensureBlock h blockNum
  let h2 := writeCell alloced.1 alloced.2.blockLookupTable st.BLOCKBITS index value
  (h2, { alloced.2 with numElements := mod64 (alloced.2.numElements + 1) })

/-- Run a list of sequential `insertAt` calls. -/
def RandomInsertPiggyList.runInserts {T : Type}
    (s : Heap T × RandomInsertPiggyList T) (calls : List (Nat × T)) :
    Heap T × RandomInsertPiggyList T :=
  calls.foldl (fun s c => s.2.insertAt s.1 c.1 c.2) s

/-! ## Concurrent index reservation -/

/-- The linearisation of the `m_size.fetch_add(1, std::memory_order_acquire)`
events performed by concurrent `append`/`createNode` calls (lines 187 and 208).
`m_size` is a single atomic `size_t` counter and the fetch-add is its only
mutation during `append`/`createNode`, so an execution is an arbitrary
interleaving `order` of the calls and each call receives the counter value at
its own fetch-add event. -/
def fetchAddEvents {α : Type} (counter : Nat) : List α → List (α × Nat)
  | [] => []
  | t :: ts => (t, counter) :: fetchAddEvents (mod64 (counter + 1)) ts

/-! ## Copy constructors -/

/-- The contents of a fresh block after `new T[n]` followed by
`memcpy(dst, src, n * sizeof(T))`: cell `j < n` holds the source block's cell
`j` (reading past the source block or from a freed source is undefined
behaviour, modelled as an indeterminate cell). -/
def memcpyCells {T : Type} (src : Option (Block T)) (n : Nat) : Nat → Option T :=
  fun j =>
    if j < n then
      match src with
      | none => none
      | some b => if j < b.len then b.cells j else none
    else none

/-- The block-copy loop of the `PiggyList` copy constructor (lines 152-158):
for each source slot in order, allocate `cSize` elements, `memcpy` `cSize`
elements over from the source block, and double `cSize`. -/
def PiggyList.copyBlocks {T : Type} (srcTbl : Nat → Option Nat) :
    Nat → Nat → Nat → Heap T → (Nat → Option Nat) →
      Heap T × (Nat → Option Nat) × Nat
  | 0, _, cSize, h, tbl => (h, tbl, cSize)
  | count + 1, i, cSize, h, tbl =>
    let srcBlk : Option (Block T) :=
      match srcTbl i with
      | none => none
      | some a => h.mem a
    let al := h.allocWith cSize (memcpyCells srcBlk cSize)
    PiggyList.copyBlocks srcTbl count (i + 1) (mod64 (cSize <<< 1)) al.1
      (Function.update tbl i (some al.2))

/-- The `PiggyList` copy constructor (lines 147-161): copy `BLOCKBITS` and the
three counters, deep-copy the first `num_containers` blocks with `cSize`
doubling from `BLOCKSIZE` (`allocsize` is not copied — it stays at its member
default `BLOCKSIZE`, line 303), and evaluate the assertion
`(cSize >> 1) == container_size` of line 160.  Returns the new heap, the new
list, and the assertion's value. -/
def PiggyList.copyCtor {T : Type} (other : PiggyList T) (h : Heap T) :
    Heap T × PiggyList T × Bool :=
  let r := PiggyList.copyBlocks other.blockLookupTable other.num_containers 0
    other.BLOCKSIZE h (fun _ => none)
  (r.1,
    { BLOCKBITS := other.BLOCKBITS, num_containers := other.num_containers,
      allocsize := other.BLOCKSIZE, container_size := other.container_size,
      m_size := other.m_size, blockLookupTable := r.2.1 },
    (r.2.2 >>> 1) == other.container_size)

/-- The block-copy loop of the `RandomInsertPiggyList` copy constructor
(lines 46-58): for each of the 64 slots, if the source slot is non-null,
allocate `INITIALBLOCKSIZE << i` elements and `memcpy` them over. -/
def RandomInsertPiggyList.copyBlocks {T : Type} (srcTbl : Nat → Option Nat)
    (ibs : Nat) : Nat → Nat → Heap T → (Nat → Option Nat) →
      Heap T × (Nat → Option Nat)
  | 0, _, h, tbl => (h, tbl)
  | count + 1, i, h, tbl =>
    match srcTbl i with
    | none => RandomInsertPiggyList.copyBlocks srcTbl ibs count (i + 1) h tbl
    | some a =>
      let blockSize := mod64 (ibs <<< i)
      let al := h.allocWith blockSize (memcpyCells (h.mem a) blockSize)
      RandomInsertPiggyList.copyBlocks srcTbl ibs count (i + 1) al.1
        (Function.update tbl i (some al.2))

/-- The `RandomInsertPiggyList` copy constructor (lines 42-59): copy
`BLOCKBITS` and `numElements`, and deep-copy every allocated block. -/
def RandomInsertPiggyList.copyCtor {T : Type} (other : RandomInsertPiggyList T)
    (h : Heap T) : Heap T × RandomInsertPiggyList T :=
  let r := RandomInsertPiggyList.copyBlocks other.blockLookupTable
    other.INITIALBLOCKSIZE RandomInsertPiggyList.maxContainers 0 h (fun _ => none)
  (r.1,
    { BLOCKBITS := other.BLOCKBITS, numElements := other.numElements,
      blockLookupTable := r.2 })

/-! ## Well-formedness invariants -/

/-- A heap is well formed when no address at or past `next` is allocated
(allocation hands out strictly increasing addresses, and freed addresses are
never reused). -/
def Heap.WF {T : Type} (h : Heap T) : Prop :=
  ∀ a, h.next ≤ a → h.mem a = none

/-- The invariant tying a `PiggyList` to its heap.  It holds for a freshly
constructed list and is preserved by every completed sequential operation:
the bookkeeping counters satisfy the geometric-growth equations
(`container_size = B * (2 ^ num_containers - 1)`,
`allocsize = B * 2 ^ num_containers`, `container_size ≤ 2 * m_size + B`),
`m_size` fits in the current capacity, and each of the first
`num_containers` table slots holds a distinct live block of length
`B * 2 ^ slot`. -/
structure PiggyList.WF {T : Type} (h : Heap T) (st : PiggyList T) : Prop where
  hbb : st.BLOCKBITS ≤ 30
  hheap : h.WF
  hm : st.m_size ≤ st.container_size
  hcap : st.container_size = 2 ^ st.BLOCKBITS * (2 ^ st.num_containers - 1)
  halloc : st.allocsize = 2 ^ st.BLOCKBITS * 2 ^ st.num_containers
  hsize : st.container_size ≤ 2 * st.m_size + 2 ^ st.BLOCKBITS
  htable : ∀ s, s < st.num_containers →
    ∃ a, st.blockLookupTable s = some a ∧ a < h.next ∧
      ∃ b, h.mem a = some b ∧ b.len = 2 ^ st.BLOCKBITS * 2 ^ s
  hinj : ∀ s1 s2 a, s1 < st.num_containers → s2 < st.num_containers →
    st.blockLookupTable s1 = some a → st.blockLookupTable s2 = some a → s1 = s2

/-- The invariant tying a `RandomInsertPiggyList` to its heap: every non-null
table slot is one of the 64 physical slots and holds a live block of
`INITIALBLOCKSIZE << slot` elements, distinct slots hold distinct blocks. -/
structure RandomInsertPiggyList.WF {T : Type} (h : Heap T)
    (st : RandomInsertPiggyList T) : Prop where
  hbb : st.BLOCKBITS ≤ 30
  hheap : h.WF
  htable : ∀ s a, st.blockLookupTable s = some a →
    s < 64 ∧ a < h.next ∧
      ∃ b, h.mem a = some b ∧ b.len = 2 ^ st.BLOCKBITS * 2 ^ s
  hinj : ∀ s1 s2 a, st.blockLookupTable s1 = some a →
    st.blockLookupTable s2 = some a → s1 = s2

/-! ## The index-to-location mapping -/

theorem log2_eq_of {k n : Nat} (h1 : 2 ^ k ≤ n) (h2 : n < 2 ^ (k + 1)) :
    Nat.log2 n = k := by
  rw [Nat.log2_eq_log_two]
  exact Nat.log_eq_of_pow_le_of_lt_pow h1 h2

theorem mod64_eq_of_lt {n : Nat} (h : n < 2 ^ 64) : mod64 n = n :=
  Nat.mod_eq_of_lt h

/-- In the exactly-representable regime (`index + B < 2 ^ 32`), `getLoc`
computes the contract location: raw block `log2 (index + B)`, offset
`(index + B) mod 2 ^ log2 (index + B)`, table slot `log2 (index + B) - BLOCKBITS`. -/
theorem getLoc_eq {bb index : Nat} (h : index + 2 ^ bb < 2 ^ 32) :
    getLoc bb index =
      (Nat.log2 (index + 2 ^ bb) - bb,
        (index + 2 ^ bb) % 2 ^ Nat.log2 (index + 2 ^ bb)) := by
  have hbpos : (0:ℕ) < 2 ^ bb := Nat.pow_pos (by norm_num)
  set n := index + 2 ^ bb with hn
  have hn0 : n ≠ 0 := by omega
  have hL : Nat.log2 n < 32 := (Nat.log2_lt hn0).mpr h
  have hbbL : bb ≤ Nat.log2 n := by
    by_contra hc
    push_neg at hc
    have h1 : n < 2 ^ bb := (Nat.log2_lt hn0).mp hc
    omega
  have e1 : mod64 (1 <<< bb) = 2 ^ bb := by
    rw [Nat.shiftLeft_eq, one_mul, mod64, Nat.mod_eq_of_lt]
    have : bb < 64 := by
      by_contra hb
      push_neg at hb
      have h1 : (2:ℕ) ^ 64 ≤ 2 ^ bb := Nat.pow_le_pow_right (by norm_num) hb
      omega
    exact Nat.pow_lt_pow_right (by norm_num) this
  have e2 : mod64 n = n := mod64_eq_of_lt (by omega)
  have e3 : builtin_clzll n = 63 - Nat.log2 n := by rw [builtin_clzll, if_neg hn0]
  have e4 : mod64 (63 + 2 ^ 64 - (63 - Nat.log2 n)) = Nat.log2 n := by
    rw [mod64]; omega
  have e5 : mod32 (1 <<< Nat.log2 n) = 2 ^ Nat.log2 n := by
    rw [Nat.shiftLeft_eq, one_mul, mod32,
      Nat.mod_eq_of_lt (Nat.pow_lt_pow_right (by norm_num) hL)]
  have hpowpos : (0:ℕ) < 2 ^ Nat.log2 n := Nat.pow_pos (by norm_num)
  have hpow32 : (2:ℕ) ^ Nat.log2 n < 2 ^ 32 := Nat.pow_lt_pow_right (by norm_num) hL
  have e6 : mod32 (2 ^ Nat.log2 n + (2 ^ 32 - 1)) = 2 ^ Nat.log2 n - 1 := by
    rw [mod32]; omega
  have hpow31 : (2:ℕ) ^ Nat.log2 n ≤ 2 ^ 31 := Nat.pow_le_pow_right (by norm_num) (by omega)
  have e7 : intToSizeT (2 ^ Nat.log2 n - 1) = 2 ^ Nat.log2 n - 1 := by
    rw [intToSizeT, if_pos (by omega)]
  have e8 : n &&& (2 ^ Nat.log2 n - 1) = n % 2 ^ Nat.log2 n :=
    Nat.and_pow_two_sub_one_eq_mod n _
  have e9 : mod64 (Nat.log2 n + 2 ^ 64 - bb) = Nat.log2 n - bb := by
    rw [mod64]; omega
  simp only [getLoc]
  rw [e1, ← hn, e2, e3, e4, e5, e6, e7, e8, e9]

/-- Evaluation of `getLoc` at an index whose raw block is `bb + k`. -/
theorem getLoc_point {bb idx k : Nat} (h32 : idx + 2 ^ bb < 2 ^ 32)
    (h1 : 2 ^ (bb + k) ≤ idx + 2 ^ bb) (h2 : idx + 2 ^ bb < 2 ^ (bb + k + 1)) :
    getLoc bb idx = (k, idx + 2 ^ bb - 2 ^ (bb + k)) := by
  rw [getLoc_eq h32, log2_eq_of h1 h2]
  have hpos : (0:ℕ) < 2 ^ (bb + k) := Nat.pow_pos (by norm_num)
  have hdouble : (2:ℕ) ^ (bb + k + 1) = 2 * 2 ^ (bb + k) := by ring
  have hmod : (idx + 2 ^ bb) % 2 ^ (bb + k) = idx + 2 ^ bb - 2 ^ (bb + k) := by
    rw [Nat.mod_eq_sub_mod h1, Nat.mod_eq_of_lt (by omega)]
  rw [hmod]
  simp only [Prod.mk.injEq]
  exact ⟨by omega, trivial⟩

/-- In the high regime (`2 ^ 32 ≤ index + B < 2 ^ 64`) the 32-bit `int` mask
`(1 << blockNum) - 1` wraps to the all-ones word, so `getLoc` returns the whole
shifted index `index + B` as the in-block offset instead of
`(index + B) mod 2 ^ rawBlock`. -/
theorem getLoc_eq_high {bb index : Nat} (hbb : bb < 64)
    (hlow : 2 ^ 32 ≤ index + 2 ^ bb) (hhigh : index + 2 ^ bb < 2 ^ 64) :
    getLoc bb index = (Nat.log2 (index + 2 ^ bb) - bb, index + 2 ^ bb) := by
  have hbpos : (0:ℕ) < 2 ^ bb := Nat.pow_pos (by norm_num)
  set n := index + 2 ^ bb with hn
  have hn0 : n ≠ 0 := by omega
  have hL64 : Nat.log2 n < 64 := (Nat.log2_lt hn0).mpr hhigh
  have hL32 : 32 ≤ Nat.log2 n := by
    by_contra hc
    push_neg at hc
    have h1 : n < 2 ^ 32 := (Nat.log2_lt hn0).mp hc
    omega
  have hbbL : bb ≤ Nat.log2 n := by
    by_contra hc
    push_neg at hc
    have h1 : n < 2 ^ bb := (Nat.log2_lt hn0).mp hc
    omega
  have e1 : mod64 (1 <<< bb) = 2 ^ bb := by
    rw [Nat.shiftLeft_eq, one_mul, mod64,
      Nat.mod_eq_of_lt (Nat.pow_lt_pow_right (by norm_num) hbb)]
  have e2 : mod64 n = n := mod64_eq_of_lt hhigh
  have e3 : builtin_clzll n = 63 - Nat.log2 n := by rw [builtin_clzll, if_neg hn0]
  have e4 : mod64 (63 + 2 ^ 64 - (63 - Nat.log2 n)) = Nat.log2 n := by
    rw [mod64]; omega
  have e5 : mod32 (1 <<< Nat.log2 n) = 0 := by
    rw [Nat.shiftLeft_eq, one_mul, mod32]
    have hsplit : (2:ℕ) ^ Nat.log2 n = 2 ^ 32 * 2 ^ (Nat.log2 n - 32) := by
      rw [← pow_add]
      congr 1
      omega
    rw [hsplit]
    exact Nat.mul_mod_right _ _
  have e6 : mod32 (0 + (2 ^ 32 - 1)) = 2 ^ 32 - 1 := by rw [mod32]; omega
  have e7 : intToSizeT (2 ^ 32 - 1) = 2 ^ 64 - 1 := by
    rw [intToSizeT, if_neg (by norm_num)]
    norm_num
  have e8 : n &&& (2 ^ 64 - 1) = n := by
    rw [Nat.and_pow_two_sub_one_eq_mod, Nat.mod_eq_of_lt hhigh]
  have e9 : mod64 (Nat.log2 n + 2 ^ 64 - bb) = Nat.log2 n - bb := by
    rw [mod64]; omega
  simp only [getLoc]
  rw [e1, ← hn, e2, e3, e4, e5, e6, e7, e8, e9]

/-- C1: for base block size `B = 2 ^ BLOCKBITS`, `get` maps index `idx` to raw
block `floor (log2 (idx + B))`, offset `(idx + B) mod 2 ^ rawBlock` and table
slot `rawBlock - BLOCKBITS`; in particular index `0` goes to slot 0 offset 0,
`B - 1` to slot 0 offset `B - 1`, `B` to slot 1 offset 0, `3B - 1` to slot 1
offset `2B - 1`, and `3B` to slot 2 offset 0. -/
theorem mapping_boundary_correct (bb : Nat) (hbb : bb ≤ 29) :
    (∀ idx, idx + 2 ^ bb < 2 ^ 32 →
        getLoc bb idx =
          (Nat.log2 (idx + 2 ^ bb) - bb,
            (idx + 2 ^ bb) % 2 ^ Nat.log2 (idx + 2 ^ bb))) ∧
    getLoc bb 0 = (0, 0) ∧
    getLoc bb (2 ^ bb - 1) = (0, 2 ^ bb - 1) ∧
    getLoc bb (2 ^ bb) = (1, 0) ∧
    getLoc bb (3 * 2 ^ bb - 1) = (1, 2 * 2 ^ bb - 1) ∧
    getLoc bb (3 * 2 ^ bb) = (2, 0) := by
  have hbpos : (0:ℕ) < 2 ^ bb := Nat.pow_pos (by norm_num)
  have hsmall : (2:ℕ) ^ bb ≤ 2 ^ 29 := Nat.pow_le_pow_right (by norm_num) hbb
  have p0 : (2:ℕ) ^ (bb + 0) = 2 ^ bb := by ring
  have p1 : (2:ℕ) ^ (bb + 1) = 2 * 2 ^ bb := by ring
  have p2 : (2:ℕ) ^ (bb + 2) = 4 * 2 ^ bb := by ring
  have p3 : (2:ℕ) ^ (bb + 3) = 8 * 2 ^ bb := by ring
  refine ⟨fun idx h => getLoc_eq h, ?_, ?_, ?_, ?_, ?_⟩
  · rw [@getLoc_point bb 0 0 (by omega) (by omega) (by omega)]
    simp only [Prod.mk.injEq]
    exact ⟨trivial, by omega⟩
  · rw [@getLoc_point bb (2 ^ bb - 1) 0 (by omega) (by omega) (by omega)]
    simp only [Prod.mk.injEq]
    exact ⟨trivial, by omega⟩
  · rw [@getLoc_point bb (2 ^ bb) 1 (by omega) (by omega) (by omega)]
    simp only [Prod.mk.injEq]
    exact ⟨trivial, by omega⟩
  · rw [@getLoc_point bb (3 * 2 ^ bb - 1) 1 (by omega) (by omega) (by omega)]
    simp only [Prod.mk.injEq]
    exact ⟨trivial, by omega⟩
  · rw [@getLoc_point bb (3 * 2 ^ bb) 2 (by omega) (by omega) (by omega)]
    simp only [Prod.mk.injEq]
    exact ⟨trivial, by omega⟩

/-- C1 witness at the default base size `B = 2 ^ 16`. -/
theorem mapping_boundary_correct_witness :
    16 ≤ 29 ∧ getLoc 16 (3 * 2 ^ 16) = (2, 0) :=
  ⟨by norm_num, (mapping_boundary_correct 16 (by norm_num)).2.2.2.2.2⟩

/-- C5: at `idx = 2 ^ 32` (with the default base size `B = 2 ^ 16`), the §4.1
contract prescribes slot 16 and offset `2 ^ 16`, but `get` computes offset
`2 ^ 32 + 2 ^ 16`: the `int`-typed literal in `(1 << blockNum) - 1` makes the
mask arithmetic inexact once the raw block number reaches 32, contradicting
the code's own claim that `2 ^ 64 - 1` elements are addressable. -/
theorem addressing_range_bug :
    getLoc 16 (2 ^ 32) = (16, 2 ^ 32 + 2 ^ 16) ∧
    (2 ^ 32 + 2 ^ 16) % 2 ^ Nat.log2 (2 ^ 32 + 2 ^ 16) = 2 ^ 16 ∧
    (getLoc 16 (2 ^ 32)).2 ≠ (2 ^ 32 + 2 ^ 16) % 2 ^ Nat.log2 (2 ^ 32 + 2 ^ 16) := by
  have hlog : Nat.log2 (2 ^ 32 + 2 ^ 16) = 32 := log2_eq_of (by norm_num) (by norm_num)
  have hloc : getLoc 16 (2 ^ 32) = (16, 2 ^ 32 + 2 ^ 16) := by
    rw [getLoc_eq_high (by norm_num) (by norm_num) (by norm_num), hlog]
  refine ⟨hloc, by rw [hlog]; norm_num, ?_⟩
  rw [hloc, hlog]
  norm_num

/-- Decomposition of `getLoc` in the exact regime: the raw block is at least
`BLOCKBITS`, and the offset is the index shifted into the raw block, strictly
below the block's capacity `2 ^ rawBlock`. -/
theorem getLoc_decomp {bb i : Nat} (hi : i + 2 ^ bb < 2 ^ 32) :
    bb ≤ Nat.log2 (i + 2 ^ bb) ∧
    (getLoc bb i).1 = Nat.log2 (i + 2 ^ bb) - bb ∧
    (getLoc bb i).2 = i + 2 ^ bb - 2 ^ Nat.log2 (i + 2 ^ bb) ∧
    (getLoc bb i).2 < 2 ^ Nat.log2 (i + 2 ^ bb) ∧
    2 ^ Nat.log2 (i + 2 ^ bb) ≤ i + 2 ^ bb := by
  have hbpos : (0:ℕ) < 2 ^ bb := Nat.pow_pos (by norm_num)
  have hn0 : i + 2 ^ bb ≠ 0 := by omega
  have hself : 2 ^ Nat.log2 (i + 2 ^ bb) ≤ i + 2 ^ bb := Nat.log2_self_le hn0
  have hsucc : i + 2 ^ bb < 2 ^ (Nat.log2 (i + 2 ^ bb) + 1) :=
    (Nat.log2_lt hn0).mp (Nat.lt_succ_self _)
  have hdouble : (2:ℕ) ^ (Nat.log2 (i + 2 ^ bb) + 1) =
      2 * 2 ^ Nat.log2 (i + 2 ^ bb) := by ring
  have hbbL : bb ≤ Nat.log2 (i + 2 ^ bb) := by
    by_contra hc
    push_neg at hc
    have h1 : i + 2 ^ bb < 2 ^ bb := (Nat.log2_lt hn0).mp hc
    omega
  have hmod : (i + 2 ^ bb) % 2 ^ Nat.log2 (i + 2 ^ bb) =
      i + 2 ^ bb - 2 ^ Nat.log2 (i + 2 ^ bb) := by
    rw [Nat.mod_eq_sub_mod hself, Nat.mod_eq_of_lt (by omega)]
  rw [getLoc_eq hi]
  exact ⟨hbbL, rfl, hmod, by omega, hself⟩

/-- The mapping is injective on the exact regime: distinct indices resolve to
distinct (slot, offset) pairs. -/
theorem getLoc_inj {bb i j : Nat} (hi : i + 2 ^ bb < 2 ^ 32)
    (hj : j + 2 ^ bb < 2 ^ 32) (hij : getLoc bb i = getLoc bb j) : i = j := by
  obtain ⟨hbi, hsi, hoi, hlti, hgei⟩ := getLoc_decomp hi
  obtain ⟨hbj, hsj, hoj, hltj, hgej⟩ := getLoc_decomp hj
  have h1 : (getLoc bb i).1 = (getLoc bb j).1 := by rw [hij]
  have h2 : (getLoc bb i).2 = (getLoc bb j).2 := by rw [hij]
  rw [hsi, hsj] at h1
  rw [hoi, hoj] at h2
  have hL : Nat.log2 (i + 2 ^ bb) = Nat.log2 (j + 2 ^ bb) := by omega
  rw [hL] at h2 hgei hlti hoi
  omega

/-! ## Heap and cell lemmas -/

theorem Heap.WF_alloc {T : Type} {h : Heap T} (wf : h.WF) (len : Nat) :
    (h.alloc len).1.WF := by
  intro a ha
  have hne : a ≠ h.next := by
    simp only [Heap.alloc, Heap.allocWith] at ha
    omega
  simp only [Heap.alloc, Heap.allocWith]
  rw [Function.update_noteq hne]
  apply wf
  simp only [Heap.alloc, Heap.allocWith] at ha
  omega

theorem Heap.alloc_mem_self {T : Type} (h : Heap T) (len : Nat) :
    (h.alloc len).1.mem h.next = some ⟨len, fun _ => none⟩ := by
  simp only [Heap.alloc, Heap.allocWith]
  exact Function.update_same _ _ _

theorem Heap.alloc_mem_ne {T : Type} (h : Heap T) (len : Nat) {a : Nat}
    (hne : a ≠ h.next) : (h.alloc len).1.mem a = h.mem a := by
  simp only [Heap.alloc, Heap.allocWith]
  exact Function.update_noteq hne _ _

theorem readCell_congr_mem {T : Type} {h h' : Heap T} {tbl : Nat → Option Nat}
    {bb i : Nat} (hsame : ∀ a, tbl (getLoc bb i).1 = some a → h'.mem a = h.mem a) :
    readCell h' tbl bb i = readCell h tbl bb i := by
  simp only [readCell]
  cases hx : tbl (getLoc bb i).1 with
  | none => rfl
  | some a =>
    dsimp only
    rw [hsame a hx]

theorem readCell_congr_tbl {T : Type} {h : Heap T} {tbl tbl' : Nat → Option Nat}
    {bb i : Nat} (hsame : tbl' (getLoc bb i).1 = tbl (getLoc bb i).1) :
    readCell h tbl' bb i = readCell h tbl bb i := by
  simp only [readCell]
  rw [hsame]

theorem writeCell_next {T : Type} (h : Heap T) (tbl : Nat → Option Nat)
    (bb i : Nat) (v : T) : (writeCell h tbl bb i v).next = h.next := by
  simp only [writeCell]
  cases tbl (getLoc bb i).1 with
  | none => rfl
  | some a =>
    dsimp only
    cases h.mem a with
    | none => rfl
    | some b =>
      dsimp only
      by_cases hoff : (getLoc bb i).2 < b.len <;> simp [hoff]

theorem writeCell_WF {T : Type} {h : Heap T} (wf : h.WF) (tbl : Nat → Option Nat)
    (bb i : Nat) (v : T) : (writeCell h tbl bb i v).WF := by
  simp only [writeCell]
  cases tbl (getLoc bb i).1 with
  | none => exact wf
  | some a =>
    dsimp only
    cases hm : h.mem a with
    | none => exact wf
    | some b =>
      by_cases hoff : (getLoc bb i).2 < b.len
      · simp only [if_pos hoff]
        intro x hx
        dsimp only at hx ⊢
        have hax : x ≠ a := by
          intro he
          subst he
          rw [wf x hx] at hm
          exact Option.noConfusion hm
        rw [Function.update_noteq hax]
        exact wf x hx
      · simp only [if_neg hoff]
        exact wf

/-- A write only touches the cell it targets: a read through a possibly
different table is unchanged provided it does not resolve to the same
address at the same offset. -/
theorem readCell_writeCell_of_ne {T : Type} {h : Heap T}
    {tblW tblR : Nat → Option Nat} {bbW bbR iW iR : Nat} {v : T}
    (hne : ∀ a, tblR (getLoc bbR iR).1 = some a → tblW (getLoc bbW iW).1 = some a →
      (getLoc bbR iR).2 ≠ (getLoc bbW iW).2) :
    readCell (writeCell h tblW bbW iW v) tblR bbR iR = readCell h tblR bbR iR := by
  simp only [writeCell]
  cases hw : tblW (getLoc bbW iW).1 with
  | none => rfl
  | some aW =>
    dsimp only
    cases hmW : h.mem aW with
    | none => rfl
    | some bW =>
      dsimp only
      by_cases hoffW : (getLoc bbW iW).2 < bW.len
      · simp only [if_pos hoffW]
        simp only [readCell]
        cases hr : tblR (getLoc bbR iR).1 with
        | none => rfl
        | some aR =>
          dsimp only
          by_cases haddr : aR = aW
          · subst haddr
            rw [Function.update_same, hmW]
            have hoffne := hne aR hr hw
            by_cases hoffR : (getLoc bbR iR).2 < bW.len
            · simp only [if_pos hoffR]
              rw [Function.update_noteq hoffne]
            · simp only [if_neg hoffR]
          · rw [Function.update_noteq haddr]
      · simp only [if_neg hoffW]

/-- Reading back the cell just written yields the written value. -/
theorem readCell_writeCell_same {T : Type} {h : Heap T} {tbl : Nat → Option Nat}
    {bb i a : Nat} {b : Block T} (v : T)
    (ha : tbl (getLoc bb i).1 = some a) (hb : h.mem a = some b)
    (hoff : (getLoc bb i).2 < b.len) :
    readCell (writeCell h tbl bb i v) tbl bb i = some v := by
  simp only [writeCell]
  rw [ha]
  dsimp only
  rw [hb]
  dsimp only
  simp only [if_pos hoff]
  simp only [readCell]
  rw [ha]
  dsimp only
  rw [Function.update_same]
  dsimp only
  simp only [if_pos hoff]
  rw [Function.update_same]

theorem freeBlocks_next {T : Type} (h : Heap T) (tbl : Nat → Option Nat) :
    ∀ n, (freeBlocks h tbl n).next = h.next := by
  intro n
  induction n with
  | zero => rfl
  | succ n ih =>
    unfold freeBlocks
    cases tbl n with
    | none => exact ih
    | some a => simp only [Heap.free]; exact ih

theorem freeBlocks_mem {T : Type} (h : Heap T) (tbl : Nat → Option Nat) :
    ∀ n a, (freeBlocks h tbl n).mem a = none ∨ (freeBlocks h tbl n).mem a = h.mem a := by
  intro n
  induction n with
  | zero => intro a; exact Or.inr rfl
  | succ n ih =>
    intro a
    unfold freeBlocks
    cases tbl n with
    | none => exact ih a
    | some x =>
      simp only [Heap.free]
      by_cases hax : a = x
      · subst hax
        rw [Function.update_same]
        exact Or.inl rfl
      · rw [Function.update_noteq hax]
        exact ih a

theorem freeBlocks_WF {T : Type} {h : Heap T} (wf : h.WF)
    (tbl : Nat → Option Nat) (n : Nat) : (freeBlocks h tbl n).WF := by
  intro a ha
  rw [freeBlocks_next] at ha
  rcases freeBlocks_mem h tbl n a with h1 | h1
  · exact h1
  · rw [h1]
    exact wf a ha

/-- A write never changes which addresses are allocated, nor any block's
length. -/
theorem writeCell_len {T : Type} (h : Heap T) (tbl : Nat → Option Nat)
    (bb i : Nat) (v : T) (x : Nat) :
    Option.map Block.len ((writeCell h tbl bb i v).mem x) =
      Option.map Block.len (h.mem x) := by
  simp only [writeCell]
  cases tbl (getLoc bb i).1 with
  | none => rfl
  | some a =>
    dsimp only
    cases hm : h.mem a with
    | none => rfl
    | some b =>
      dsimp only
      by_cases hoff : (getLoc bb i).2 < b.len
      · simp only [if_pos hoff]
        by_cases hax : x = a
        · subst hax
          rw [Function.update_same, hm]
          rfl
        · rw [Function.update_noteq hax]
      · simp only [if_neg hoff]

/-! ## Growth lemmas -/

theorem growToFuel_of_ge {T : Type} (fuel : Nat) (h : Heap T) (st : PiggyList T)
    (target : Nat) (hge : target ≤ st.container_size) :
    PiggyList.growToFuel fuel h st target = (h, st) := by
  cases fuel with
  | zero => rfl
  | succ n => simp only [PiggyList.growToFuel, if_neg (Nat.not_lt.mpr hge)]

theorem growTo_of_ge {T : Type} (h : Heap T) (st : PiggyList T) (target : Nat)
    (hge : target ≤ st.container_size) : st.growTo h target = (h, st) :=
  growToFuel_of_ge _ _ _ _ hge

/-- When one iteration of the growth loop reaches the target (the case of
every sequentially reachable growth), the loop adds exactly one block. -/
theorem growTo_step {T : Type} (h : Heap T) (st : PiggyList T) (target : Nat)
    (hlt : st.container_size < target)
    (hstop : target ≤ mod64 (st.container_size + st.allocsize)) :
    st.growTo h target = st.addBlock h := by
  obtain ⟨u, rfl⟩ : ∃ u, target = u + 1 := ⟨target - 1, by omega⟩
  show PiggyList.growToFuel (u + 1) h st (u + 1) = _
  simp only [PiggyList.growToFuel, if_pos hlt]
  have hcap2 : (st.addBlock h).2.container_size =
      mod64 (st.container_size + st.allocsize) := rfl
  rw [growToFuel_of_ge u _ _ _ (by rw [hcap2]; exact hstop)]

/-- `append` in the no-growth case: only `m_size` moves, and the element is
stored through the unchanged table. -/
theorem append_eq_nogrow {T : Type} (h : Heap T) (st : PiggyList T) (v : T)
    (hge : st.m_size + 1 ≤ st.container_size) (hm64 : st.m_size + 1 < 2 ^ 64) :
    st.append h v =
      (writeCell h st.blockLookupTable st.BLOCKBITS st.m_size v,
        { st with m_size := st.m_size + 1 }, st.m_size) := by
  simp only [PiggyList.append]
  rw [mod64_eq_of_lt hm64]
  rw [growTo_of_ge h { st with m_size := st.m_size + 1 } (st.m_size + 1) hge]
  rfl

/-- `append` in the growth case (capacity exactly one block short, as in every
sequentially reachable growth): one block of `allocsize` elements is allocated
at the next free address into slot `num_containers`, the counters advance, and
the element is stored through the extended table. -/
theorem append_eq_grow {T : Type} (h : Heap T) (st : PiggyList T) (v : T)
    (hlt : st.container_size < st.m_size + 1) (hm64 : st.m_size + 1 < 2 ^ 64)
    (hstop : st.m_size + 1 ≤ st.container_size + st.allocsize)
    (hcap64 : st.container_size + st.allocsize < 2 ^ 64)
    (hnc64 : st.num_containers + 1 < 2 ^ 64) (hal64 : 2 * st.allocsize < 2 ^ 64) :
    st.append h v =
      (writeCell (h.alloc st.allocsize).1
          (Function.update st.blockLookupTable st.num_containers (some h.next))
          st.BLOCKBITS st.m_size v,
        { st with
          m_size := st.m_size + 1
          num_containers := st.num_containers + 1
          container_size := st.container_size + st.allocsize
          allocsize := 2 * st.allocsize
          blockLookupTable :=
            Function.update st.blockLookupTable st.num_containers (some h.next) },
        st.m_size) := by
  simp only [PiggyList.append]
  rw [mod64_eq_of_lt hm64]
  rw [growTo_step h { st with m_size := st.m_size + 1 } (st.m_size + 1) hlt
    (by show st.m_size + 1 ≤ mod64 (st.container_size + st.allocsize)
        rw [mod64_eq_of_lt hcap64]
        exact hstop)]
  simp only [PiggyList.addBlock, Heap.alloc, Heap.allocWith, PiggyList.writeAt]
  rw [mod64_eq_of_lt hcap64, mod64_eq_of_lt hnc64]
  rw [Nat.shiftLeft_eq]
  have h2 : st.allocsize * 2 ^ 1 = 2 * st.allocsize := by ring
  rw [h2, mod64_eq_of_lt hal64]

/-- `createNode` in the no-growth case. -/
theorem createNode_eq_nogrow {T : Type} (h : Heap T) (st : PiggyList T)
    (hge : st.m_size + 1 ≤ st.container_size) (hm64 : st.m_size + 1 < 2 ^ 64) :
    st.createNode h = (h, { st with m_size := st.m_size + 1 }, st.m_size) := by
  simp only [PiggyList.createNode]
  rw [mod64_eq_of_lt hm64]
  rw [growTo_of_ge h { st with m_size := st.m_size + 1 } (st.m_size + 1) hge]

/-- `createNode` in the (sequentially reachable) growth case. -/
theorem createNode_eq_grow {T : Type} (h : Heap T) (st : PiggyList T)
    (hlt : st.container_size < st.m_size + 1) (hm64 : st.m_size + 1 < 2 ^ 64)
    (hstop : st.m_size + 1 ≤ st.container_size + st.allocsize)
    (hcap64 : st.container_size + st.allocsize < 2 ^ 64)
    (hnc64 : st.num_containers + 1 < 2 ^ 64) (hal64 : 2 * st.allocsize < 2 ^ 64) :
    st.createNode h =
      ((h.alloc st.allocsize).1,
        { st with
          m_size := st.m_size + 1
          num_containers := st.num_containers + 1
          container_size := st.container_size + st.allocsize
          allocsize := 2 * st.allocsize
          blockLookupTable :=
            Function.update st.blockLookupTable st.num_containers (some h.next) },
        st.m_size) := by
  simp only [PiggyList.createNode]
  rw [mod64_eq_of_lt hm64]
  rw [growTo_step h { st with m_size := st.m_size + 1 } (st.m_size + 1) hlt
    (by show st.m_size + 1 ≤ mod64 (st.container_size + st.allocsize)
        rw [mod64_eq_of_lt hcap64]
        exact hstop)]
  simp only [PiggyList.addBlock, Heap.alloc, Heap.allocWith]
  rw [mod64_eq_of_lt hcap64, mod64_eq_of_lt hnc64]
  rw [Nat.shiftLeft_eq]
  have h2 : st.allocsize * 2 ^ 1 = 2 * st.allocsize := by ring
  rw [h2, mod64_eq_of_lt hal64]

/-! ## Consequences of the invariant -/

theorem WF_bounds {T : Type} {h : Heap T} {st : PiggyList T}
    (wf : PiggyList.WF h st) (hsmall : st.m_size ≤ 2 ^ 30) :
    2 ^ st.BLOCKBITS ≤ 2 ^ 30 ∧ 1 ≤ 2 ^ st.BLOCKBITS ∧
    st.container_size < 2 ^ 32 ∧
    st.allocsize = st.container_size + 2 ^ st.BLOCKBITS ∧
    st.allocsize < 2 ^ 33 ∧
    st.num_containers < 32 := by
  have hB1 : (1:ℕ) ≤ 2 ^ st.BLOCKBITS := Nat.one_le_two_pow
  have hB : 2 ^ st.BLOCKBITS ≤ 2 ^ 30 := Nat.pow_le_pow_right (by norm_num) wf.hbb
  have hcap : st.container_size < 2 ^ 32 := by
    have := wf.hsize
    omega
  have hal : st.allocsize = st.container_size + 2 ^ st.BLOCKBITS := by
    rw [wf.halloc, wf.hcap]
    have h1 : (1:ℕ) ≤ 2 ^ st.num_containers := Nat.one_le_two_pow
    calc 2 ^ st.BLOCKBITS * 2 ^ st.num_containers
        = 2 ^ st.BLOCKBITS * (2 ^ st.num_containers - 1 + 1) := by
          rw [Nat.sub_add_cancel h1]
      _ = 2 ^ st.BLOCKBITS * (2 ^ st.num_containers - 1) + 2 ^ st.BLOCKBITS := by
          rw [Nat.mul_succ]
  have hnc : st.num_containers < 32 := by
    have hsz := wf.hsize
    have h1 : 2 ^ st.num_containers - 1 ≤ st.container_size := by
      rw [wf.hcap]
      exact Nat.le_mul_of_pos_left _ (by positivity)
    have h2 : (2:ℕ) ^ st.num_containers < 2 ^ 32 := by omega
    exact (Nat.pow_lt_pow_iff_right (by norm_num)).mp h2
  exact ⟨hB, hB1, hcap, hal, by omega, hnc⟩

/-- Any index strictly below the current capacity resolves, under the
invariant, to an allocated slot holding a live block, at an in-bounds
offset. -/
theorem loc_slot_lt {T : Type} {h : Heap T} {st : PiggyList T}
    (wf : PiggyList.WF h st) (hsmall : st.m_size ≤ 2 ^ 30) {i : Nat}
    (hi : i < st.container_size) :
    i + 2 ^ st.BLOCKBITS < 2 ^ 32 ∧
    (getLoc st.BLOCKBITS i).1 < st.num_containers ∧
    ∀ a, st.blockLookupTable (getLoc st.BLOCKBITS i).1 = some a →
      a < h.next ∧ ∃ b, h.mem a = some b ∧
        b.len = 2 ^ st.BLOCKBITS * 2 ^ (getLoc st.BLOCKBITS i).1 ∧
        (getLoc st.BLOCKBITS i).2 < b.len := by
  obtain ⟨hB, hB1, hcap, hal, hal2, hnc⟩ := WF_bounds wf hsmall
  have hsz := wf.hsize
  have hi32 : i + 2 ^ st.BLOCKBITS < 2 ^ 32 := by omega
  obtain ⟨hbbL, hs, ho, holt, hoge⟩ := getLoc_decomp hi32
  have hcapB : st.container_size + 2 ^ st.BLOCKBITS =
      2 ^ (st.BLOCKBITS + st.num_containers) := by
    rw [pow_add]
    rw [← wf.halloc, hal]
  have hLlt : Nat.log2 (i + 2 ^ st.BLOCKBITS) < st.BLOCKBITS + st.num_containers := by
    have h1 : 2 ^ Nat.log2 (i + 2 ^ st.BLOCKBITS) <
        2 ^ (st.BLOCKBITS + st.num_containers) := by omega
    exact (Nat.pow_lt_pow_iff_right (by norm_num)).mp h1
  have hslot : (getLoc st.BLOCKBITS i).1 < st.num_containers := by
    rw [hs]; omega
  refine ⟨hi32, hslot, fun a ha => ?_⟩
  obtain ⟨a', ha', hanext, b, hb, hlen⟩ := wf.htable _ hslot
  rw [ha'] at ha
  cases ha
  refine ⟨hanext, b, hb, hlen, ?_⟩
  rw [hlen, hs]
  have he : st.BLOCKBITS + (Nat.log2 (i + 2 ^ st.BLOCKBITS) - st.BLOCKBITS) =
      Nat.log2 (i + 2 ^ st.BLOCKBITS) := by omega
  rw [← pow_add, he]
  omega

/-- Full characterisation of a sequential `append` from a well-formed state:
the returned index is the old `m_size`, the invariant is preserved, the new
element is readable back at its index, every previously stored element is
untouched, and the bookkeeping either only advances `m_size` (no growth) or
adds exactly one block of `allocsize` elements. -/
theorem append_spec {T : Type} {h : Heap T} {st : PiggyList T}
    (wf : PiggyList.WF h st) (hsmall : st.m_size + 1 ≤ 2 ^ 30) (v : T) :
    (st.append h v).2.2 = st.m_size ∧
    PiggyList.WF (st.append h v).1 (st.append h v).2.1 ∧
    (st.append h v).2.1.BLOCKBITS = st.BLOCKBITS ∧
    (st.append h v).2.1.m_size = st.m_size + 1 ∧
    (st.append h v).2.1.get (st.append h v).1 st.m_size = some v ∧
    (∀ i, i < st.m_size →
      (st.append h v).2.1.get (st.append h v).1 i = st.get h i) ∧
    (st.m_size + 1 ≤ st.container_size →
      (st.append h v).2.1 = { st with m_size := st.m_size + 1 }) ∧
    (st.container_size < st.m_size + 1 →
      (st.append h v).2.1 = { st with
        m_size := st.m_size + 1
        num_containers := st.num_containers + 1
        container_size := st.container_size + st.allocsize
        allocsize := 2 * st.allocsize
        blockLookupTable :=
          Function.update st.blockLookupTable st.num_containers (some h.next) }) := by
  obtain ⟨hB, hB1, hcapb, hal, hal2, hnc⟩ := WF_bounds wf (by omega)
  have hm := wf.hm
  by_cases hcase : st.m_size + 1 ≤ st.container_size
  · -- no-growth case
    have he := append_eq_nogrow h st v hcase (by omega)
    rw [he]
    have hloc := loc_slot_lt wf (by omega) (show st.m_size < st.container_size by omega)
    obtain ⟨hi32, hslot, hblk⟩ := hloc
    obtain ⟨a, ha, hanext, b, hb, hlen⟩ := wf.htable _ hslot
    obtain ⟨_, b', hb', hlen', hoff'⟩ := hblk a ha
    have hbb' : b' = b := by rw [hb] at hb'; exact (Option.some.inj hb').symm
    subst hbb'
    refine ⟨rfl, ?_, rfl, rfl, ?_, ?_, fun _ => rfl, fun hcon => absurd hcon (by omega)⟩
    · -- invariant
      refine ⟨wf.hbb, writeCell_WF wf.hheap _ _ _ _, by dsimp only; omega,
        wf.hcap, wf.halloc, ?_, ?_, wf.hinj⟩
      · have := wf.hsize
        dsimp only
        omega
      · intro s hs
        obtain ⟨x, hx, hxnext, bx, hbx, hlx⟩ := wf.htable s hs
        refine ⟨x, hx, ?_, ?_⟩
        · rw [writeCell_next]
          exact hxnext
        · have hmap := writeCell_len h st.blockLookupTable st.BLOCKBITS st.m_size v x
          rw [hbx] at hmap
          cases hy : (writeCell h st.blockLookupTable st.BLOCKBITS st.m_size v).mem x with
          | none => rw [hy] at hmap; exact absurd hmap (by simp)
          | some by' =>
            rw [hy] at hmap
            simp only [Option.map_some'] at hmap
            exact ⟨by', rfl, by rw [← hlx]; exact Option.some.inj hmap⟩
    · -- the written element reads back
      show readCell _ st.blockLookupTable st.BLOCKBITS st.m_size = some v
      exact readCell_writeCell_same v ha hb hoff'
    · -- old elements untouched
      intro i hi
      show readCell _ st.blockLookupTable st.BLOCKBITS i =
        readCell h st.blockLookupTable st.BLOCKBITS i
      apply readCell_writeCell_of_ne
      intro x hxi hxm hoffeq
      obtain ⟨hi32', hsloti, hblki⟩ :=
        loc_slot_lt wf (by omega) (show i < st.container_size by omega)
      have hsloteq : (getLoc st.BLOCKBITS i).1 = (getLoc st.BLOCKBITS st.m_size).1 :=
        wf.hinj _ _ x hsloti hslot hxi hxm
      have : getLoc st.BLOCKBITS i = getLoc st.BLOCKBITS st.m_size :=
        Prod.ext hsloteq hoffeq
      have := getLoc_inj hi32' hi32 this
      omega
  · -- growth case
    push_neg at hcase
    have hcapm : st.container_size = st.m_size := by omega
    have he := append_eq_grow h st v hcase (by omega) (by omega) (by omega)
      (by omega) (by omega)
    rw [he]
    -- the new index lands at offset 0 of the freshly allocated block
    have hi32 : st.m_size + 2 ^ st.BLOCKBITS < 2 ^ 32 := by omega
    have hmB : st.m_size + 2 ^ st.BLOCKBITS =
        2 ^ st.BLOCKBITS * 2 ^ st.num_containers := by
      rw [← wf.halloc, hal, hcapm]
    have hL : Nat.log2 (st.m_size + 2 ^ st.BLOCKBITS) =
        st.BLOCKBITS + st.num_containers := by
      rw [hmB, ← pow_add]
      exact Nat.log2_two_pow
    have hlocm : getLoc st.BLOCKBITS st.m_size = (st.num_containers, 0) := by
      rw [getLoc_eq hi32, hL]
      refine Prod.ext (by dsimp only; omega) ?_
      dsimp only
      rw [hmB, ← pow_add, Nat.mod_self]
    have hallocpos : 1 ≤ st.allocsize := by omega
    refine ⟨rfl, ?_, rfl, rfl, ?_, ?_, fun hcon => absurd hcon (by omega), fun _ => rfl⟩
    · -- invariant
      have hheap2 : ((h.alloc st.allocsize).1).WF := Heap.WF_alloc wf.hheap _
      refine ⟨wf.hbb, writeCell_WF hheap2 _ _ _ _, by dsimp only; omega, ?_, ?_, ?_, ?_, ?_⟩
      · -- capacity equation
        show st.container_size + st.allocsize =
          2 ^ st.BLOCKBITS * (2 ^ (st.num_containers + 1) - 1)
        rw [hal, wf.hcap]
        obtain ⟨y, hy⟩ : ∃ y, 2 ^ st.num_containers = y + 1 :=
          ⟨2 ^ st.num_containers - 1, by have := @Nat.one_le_two_pow st.num_containers; omega⟩
        have hpow : (2:ℕ) ^ (st.num_containers + 1) = 2 * (y + 1) := by
          rw [pow_succ, hy]; ring
        rw [hy, hpow]
        have h1 : y + 1 - 1 = y := by omega
        have h2 : 2 * (y + 1) - 1 = 2 * y + 1 := by omega
        rw [h1, h2]
        ring
      · -- allocsize equation
        show 2 * st.allocsize = 2 ^ st.BLOCKBITS * 2 ^ (st.num_containers + 1)
        rw [wf.halloc, pow_succ]
        ring
      · -- size bound
        show st.container_size + st.allocsize ≤ 2 * (st.m_size + 1) + 2 ^ st.BLOCKBITS
        omega
      · -- table
        intro s hs
        dsimp only at hs ⊢
        by_cases hsnc : s = st.num_containers
        · subst hsnc
          refine ⟨h.next, Function.update_same _ _ _, ?_, ?_⟩
          · rw [writeCell_next]
            show h.next < h.next + 1
            omega
          · have hmem0 : ((h.alloc st.allocsize).1).mem h.next =
                some ⟨st.allocsize, fun _ => none⟩ := Heap.alloc_mem_self h _
            have hmap := writeCell_len ((h.alloc st.allocsize).1)
              (Function.update st.blockLookupTable st.num_containers (some h.next))
              st.BLOCKBITS st.m_size v h.next
            rw [hmem0] at hmap
            cases hy2 : (writeCell ((h.alloc st.allocsize).1)
                (Function.update st.blockLookupTable st.num_containers (some h.next))
                st.BLOCKBITS st.m_size v).mem h.next with
            | none => rw [hy2] at hmap; exact absurd hmap (by simp)
            | some b' =>
              rw [hy2] at hmap
              simp only [Option.map_some'] at hmap
              refine ⟨b', rfl, ?_⟩
              have hb' : b'.len = st.allocsize := Option.some.inj hmap
              rw [hb', wf.halloc]
        · have hs' : s < st.num_containers := by omega
          obtain ⟨x, hx, hxnext, bx, hbx, hlx⟩ := wf.htable s hs'
          refine ⟨x, by rw [Function.update_noteq hsnc]; exact hx, ?_, ?_⟩
          · rw [writeCell_next]
            show x < h.next + 1
            omega
          · have hmemx : ((h.alloc st.allocsize).1).mem x = h.mem x :=
              Heap.alloc_mem_ne h _ (by omega)
            have hmap := writeCell_len ((h.alloc st.allocsize).1)
              (Function.update st.blockLookupTable st.num_containers (some h.next))
              st.BLOCKBITS st.m_size v x
            rw [hmemx, hbx] at hmap
            cases hy2 : (writeCell ((h.alloc st.allocsize).1)
                (Function.update st.blockLookupTable st.num_containers (some h.next))
                st.BLOCKBITS st.m_size v).mem x with
            | none => rw [hy2] at hmap; exact absurd hmap (by simp)
            | some b' =>
              rw [hy2] at hmap
              simp only [Option.map_some'] at hmap
              exact ⟨b', rfl, by rw [← hlx]; exact Option.some.inj hmap⟩
      · -- injectivity
        intro s1 s2 x hs1 hs2 hx1 hx2
        dsimp only at hs1 hs2 hx1 hx2 ⊢
        by_cases h1 : s1 = st.num_containers <;> by_cases h2 : s2 = st.num_containers
        · rw [h1, h2]
        · subst h1
          rw [Function.update_same] at hx1
          rw [Function.update_noteq h2] at hx2
          obtain ⟨x', hx', hxnext', _⟩ := wf.htable s2 (by omega)
          rw [hx'] at hx2
          cases hx2
          cases hx1
          omega
        · subst h2
          rw [Function.update_same] at hx2
          rw [Function.update_noteq h1] at hx1
          obtain ⟨x', hx', hxnext', _⟩ := wf.htable s1 (by omega)
          rw [hx'] at hx1
          cases hx1
          cases hx2
          omega
        · rw [Function.update_noteq h1] at hx1
          rw [Function.update_noteq h2] at hx2
          exact wf.hinj s1 s2 x (by omega) (by omega) hx1 hx2
    · -- the written element reads back
      show readCell _ (Function.update st.blockLookupTable st.num_containers (some h.next))
        st.BLOCKBITS st.m_size = some v
      have ha : Function.update st.blockLookupTable st.num_containers (some h.next)
          (getLoc st.BLOCKBITS st.m_size).1 = some h.next := by
        rw [hlocm]
        exact Function.update_same _ _ _
      have hb : ((h.alloc st.allocsize).1).mem h.next =
          some ⟨st.allocsize, fun _ => none⟩ := Heap.alloc_mem_self h _
      refine readCell_writeCell_same v ha hb ?_
      rw [hlocm]
      exact hallocpos
    · -- old elements untouched
      intro i hi
      show readCell _ (Function.update st.blockLookupTable st.num_containers (some h.next))
          st.BLOCKBITS i = readCell h st.blockLookupTable st.BLOCKBITS i
      obtain ⟨hi32', hsloti, hblki⟩ :=
        loc_slot_lt wf (by omega) (show i < st.container_size by omega)
      have hstep1 : readCell (writeCell ((h.alloc st.allocsize).1)
          (Function.update st.blockLookupTable st.num_containers (some h.next))
          st.BLOCKBITS st.m_size v)
          (Function.update st.blockLookupTable st.num_containers (some h.next))
          st.BLOCKBITS i =
        readCell ((h.alloc st.allocsize).1)
          (Function.update st.blockLookupTable st.num_containers (some h.next))
          st.BLOCKBITS i := by
        apply readCell_writeCell_of_ne
        intro x hxi hxm
        rw [Function.update_noteq (by omega)] at hxi
        obtain ⟨hxnext, _⟩ := hblki x hxi
        rw [hlocm] at hxm
        rw [Function.update_same] at hxm
        cases hxm
        omega
      rw [hstep1]
      rw [readCell_congr_tbl (Function.update_noteq (by omega) _ _)]
      apply readCell_congr_mem
      intro x hxi
      obtain ⟨hxnext, _⟩ := hblki x hxi
      exact Heap.alloc_mem_ne h _ (by omega)

/-- `createNode` behaves like `append` without the store: same index
assignment, same growth, and every stored element is untouched. -/
theorem createNode_spec {T : Type} {h : Heap T} {st : PiggyList T}
    (wf : PiggyList.WF h st) (hsmall : st.m_size + 1 ≤ 2 ^ 30) :
    (st.createNode h).2.2 = st.m_size ∧
    PiggyList.WF (st.createNode h).1 (st.createNode h).2.1 ∧
    (st.createNode h).2.1.BLOCKBITS = st.BLOCKBITS ∧
    (st.createNode h).2.1.m_size = st.m_size + 1 ∧
    (∀ i, i < st.m_size →
      (st.createNode h).2.1.get (st.createNode h).1 i = st.get h i) := by
  obtain ⟨hB, hB1, hcapb, hal, hal2, hnc⟩ := WF_bounds wf (by omega)
  have hm := wf.hm
  by_cases hcase : st.m_size + 1 ≤ st.container_size
  · rw [createNode_eq_nogrow h st hcase (by omega)]
    refine ⟨rfl, ?_, rfl, rfl, fun i _ => rfl⟩
    refine ⟨wf.hbb, wf.hheap, by dsimp only; omega, wf.hcap, wf.halloc, ?_,
      wf.htable, wf.hinj⟩
    have := wf.hsize
    dsimp only
    omega
  · push_neg at hcase
    have hcapm : st.container_size = st.m_size := by omega
    rw [createNode_eq_grow h st hcase (by omega) (by omega) (by omega) (by omega)
      (by omega)]
    refine ⟨rfl, ?_, rfl, rfl, ?_⟩
    · have hheap2 : ((h.alloc st.allocsize).1).WF := Heap.WF_alloc wf.hheap _
      refine ⟨wf.hbb, hheap2, by dsimp only; omega, ?_, ?_, ?_, ?_, ?_⟩
      · show st.container_size + st.allocsize =
          2 ^ st.BLOCKBITS * (2 ^ (st.num_containers + 1) - 1)
        rw [hal, wf.hcap]
        obtain ⟨y, hy⟩ : ∃ y, 2 ^ st.num_containers = y + 1 :=
          ⟨2 ^ st.num_containers - 1, by have := @Nat.one_le_two_pow st.num_containers; omega⟩
        have hpow : (2:ℕ) ^ (st.num_containers + 1) = 2 * (y + 1) := by
          rw [pow_succ, hy]; ring
        rw [hy, hpow]
        have h1 : y + 1 - 1 = y := by omega
        have h2 : 2 * (y + 1) - 1 = 2 * y + 1 := by omega
        rw [h1, h2]
        ring
      · show 2 * st.allocsize = 2 ^ st.BLOCKBITS * 2 ^ (st.num_containers + 1)
        rw [wf.halloc, pow_succ]
        ring
      · show st.container_size + st.allocsize ≤ 2 * (st.m_size + 1) + 2 ^ st.BLOCKBITS
        omega
      · intro s hs
        dsimp only at hs ⊢
        by_cases hsnc : s = st.num_containers
        · subst hsnc
          refine ⟨h.next, Function.update_same _ _ _,
            (by show h.next < h.next + 1; omega), ?_⟩
          refine ⟨⟨st.allocsize, fun _ => none⟩, Heap.alloc_mem_self h _, ?_⟩
          dsimp only
          rw [wf.halloc]
        · have hs' : s < st.num_containers := by omega
          obtain ⟨x, hx, hxnext, bx, hbx, hlx⟩ := wf.htable s hs'
          refine ⟨x, by rw [Function.update_noteq hsnc]; exact hx,
            (by show x < h.next + 1; omega), ?_⟩
          refine ⟨bx, ?_, hlx⟩
          rw [Heap.alloc_mem_ne h _ (by omega)]
          exact hbx
      · intro s1 s2 x hs1 hs2 hx1 hx2
        dsimp only at hs1 hs2 hx1 hx2
        by_cases h1 : s1 = st.num_containers <;> by_cases h2 : s2 = st.num_containers
        · rw [h1, h2]
        · subst h1
          rw [Function.update_same] at hx1
          rw [Function.update_noteq h2] at hx2
          obtain ⟨x', hx', hxnext', _⟩ := wf.htable s2 (by omega)
          rw [hx'] at hx2
          cases hx2
          cases hx1
          omega
        · subst h2
          rw [Function.update_same] at hx2
          rw [Function.update_noteq h1] at hx1
          obtain ⟨x', hx', hxnext', _⟩ := wf.htable s1 (by omega)
          rw [hx'] at hx1
          cases hx1
          cases hx2
          omega
        · rw [Function.update_noteq h1] at hx1
          rw [Function.update_noteq h2] at hx2
          exact wf.hinj s1 s2 x (by omega) (by omega) hx1 hx2
    · intro i hi
      show readCell ((h.alloc st.allocsize).1)
          (Function.update st.blockLookupTable st.num_containers (some h.next))
          st.BLOCKBITS i = readCell h st.blockLookupTable st.BLOCKBITS i
      obtain ⟨hi32', hsloti, hblki⟩ :=
        loc_slot_lt wf (by omega) (show i < st.container_size by omega)
      rw [readCell_congr_tbl (Function.update_noteq (by omega) _ _)]
      apply readCell_congr_mem
      intro x hxi
      obtain ⟨hxnext, _⟩ := hblki x hxi
      exact Heap.alloc_mem_ne h _ (by omega)

/-- `clear` preserves the invariant (it re-establishes the initial state of
the bookkeeping and frees every block). -/
theorem clear_WF {T : Type} {h : Heap T} {st : PiggyList T}
    (wf : PiggyList.WF h st) :
    PiggyList.WF (st.clear h).1 (st.clear h).2 ∧
    (st.clear h).2.BLOCKBITS = st.BLOCKBITS ∧ (st.clear h).2.m_size = 0 := by
  have he : st.clear h = (st.freeList h,
      { st with
        m_size := 0
        num_containers := 0
        allocsize := st.BLOCKSIZE
        container_size := 0 }) := rfl
  rw [he]
  refine ⟨?_, rfl, rfl⟩
  refine ⟨wf.hbb, ?_, by dsimp only; omega, ?_, ?_, ?_, ?_, ?_⟩
  · exact freeBlocks_WF wf.hheap _ _
  · show (0:ℕ) = 2 ^ st.BLOCKBITS * (2 ^ 0 - 1)
    simp
  · show st.BLOCKSIZE = 2 ^ st.BLOCKBITS * 2 ^ 0
    rw [PiggyList.BLOCKSIZE, Nat.shiftLeft_eq, one_mul,
      mod64_eq_of_lt (Nat.pow_lt_pow_right (by norm_num) (by have := wf.hbb; omega))]
    ring
  · show (0:ℕ) ≤ 2 * 0 + 2 ^ st.BLOCKBITS
    exact Nat.zero_le _
  · intro s hs
    dsimp only at hs
    exact absurd hs (by omega)
  · intro s1 s2 x hs1 hs2
    dsimp only at hs1
    exact absurd hs1 (by omega)

/-- A freshly constructed list over the empty heap is well formed. -/
theorem init_WF {T : Type} (bb : Nat) (hbb : bb ≤ 30) :
    PiggyList.WF (Heap.empty T) (PiggyList.init T bb) := by
  refine ⟨hbb, ?_, le_rfl, ?_, ?_, ?_, ?_, ?_⟩
  · intro a _
    rfl
  · show (0:ℕ) = 2 ^ bb * (2 ^ 0 - 1)
    simp
  · show mod64 (1 <<< bb) = 2 ^ bb * 2 ^ 0
    rw [Nat.shiftLeft_eq, one_mul,
      mod64_eq_of_lt (Nat.pow_lt_pow_right (by norm_num) (by omega))]
    ring
  · show (0:ℕ) ≤ 2 * 0 + 2 ^ bb
    exact Nat.zero_le _
  · intro s hs
    exact absurd hs (show ¬ s < 0 by omega)
  · intro s1 s2 x hs1 _ _ _
    exact absurd hs1 (show ¬ s1 < 0 by omega)

/-- Any sequence of sequential operations preserves the invariant, keeps the
base block size, and adds at most one element per operation. -/
theorem runOps_WF {T : Type} (ops : List (Op T)) :
    ∀ (h : Heap T) (st : PiggyList T), PiggyList.WF h st →
      st.m_size + ops.length ≤ 2 ^ 30 →
      PiggyList.WF (PiggyList.runOps (h, st) ops).1 (PiggyList.runOps (h, st) ops).2 ∧
      (PiggyList.runOps (h, st) ops).2.BLOCKBITS = st.BLOCKBITS ∧
      (PiggyList.runOps (h, st) ops).2.m_size ≤ st.m_size + ops.length := by
  induction ops with
  | nil =>
    intro h st wf hb
    exact ⟨wf, rfl, show st.m_size ≤ st.m_size + 0 by omega⟩
  | cons op rest ih =>
    intro h st wf hb
    simp only [List.length_cons] at hb
    have hstep : PiggyList.runOps (h, st) (op :: rest) =
        PiggyList.runOps (PiggyList.runOp (h, st) op) rest := rfl
    rw [hstep]
    cases op with
    | append v =>
      obtain ⟨_, wf', hbbv, hm', _, _, _, _⟩ := append_spec wf (by omega) v
      have hrun : PiggyList.runOp (h, st) (Op.append v) =
          ((st.append h v).1, (st.append h v).2.1) := rfl
      rw [hrun]
      obtain ⟨w1, w2, w3⟩ := ih (st.append h v).1 (st.append h v).2.1 wf'
        (by rw [hm']; omega)
      exact ⟨w1, by rw [w2, hbbv], by rw [hm'] at w3; simp only [List.length_cons]; omega⟩
    | createNode =>
      obtain ⟨_, wf', hbbv, hm', _⟩ := createNode_spec wf (by omega)
      have hrun : PiggyList.runOp (h, st) Op.createNode =
          ((st.createNode h).1, (st.createNode h).2.1) := rfl
      rw [hrun]
      obtain ⟨w1, w2, w3⟩ := ih (st.createNode h).1 (st.createNode h).2.1 wf'
        (by rw [hm']; omega)
      exact ⟨w1, by rw [w2, hbbv], by rw [hm'] at w3; simp only [List.length_cons]; omega⟩
    | clear =>
      obtain ⟨wf', hbbv, hm'⟩ := clear_WF wf
      have hrun : PiggyList.runOp (h, st) Op.clear =
          ((st.clear h).1, (st.clear h).2) := rfl
      rw [hrun]
      obtain ⟨w1, w2, w3⟩ := ih (st.clear h).1 (st.clear h).2 wf' (by rw [hm']; omega)
      exact ⟨w1, by rw [w2, hbbv], by rw [hm'] at w3; simp only [List.length_cons]; omega⟩

/-- Without `clear`, a run of sequential `append`/`createNode` calls never
disturbs an already-stored element, and `m_size` only grows. -/
theorem runOps_preserve_get {T : Type} (ops : List (Op T)) :
    ∀ (h : Heap T) (st : PiggyList T), PiggyList.WF h st →
      st.m_size + ops.length ≤ 2 ^ 30 →
      (∀ op ∈ ops, op ≠ Op.clear) →
      st.m_size ≤ (PiggyList.runOps (h, st) ops).2.m_size ∧
      (∀ i, i < st.m_size →
        (PiggyList.runOps (h, st) ops).2.get (PiggyList.runOps (h, st) ops).1 i =
          st.get h i) := by
  induction ops with
  | nil =>
    intro h st wf hb hnc
    exact ⟨le_rfl, fun i _ => rfl⟩
  | cons op rest ih =>
    intro h st wf hb hnc
    simp only [List.length_cons] at hb
    have hstep : PiggyList.runOps (h, st) (op :: rest) =
        PiggyList.runOps (PiggyList.runOp (h, st) op) rest := rfl
    rw [hstep]
    cases op with
    | append v =>
      obtain ⟨_, wf', hbbv, hm', _, hpres, _, _⟩ := append_spec wf (by omega) v
      have hrun : PiggyList.runOp (h, st) (Op.append v) =
          ((st.append h v).1, (st.append h v).2.1) := rfl
      rw [hrun]
      obtain ⟨w1, w2⟩ := ih (st.append h v).1 (st.append h v).2.1 wf'
        (by rw [hm']; omega) (fun op hop => hnc op (List.mem_cons_of_mem _ hop))
      refine ⟨by rw [hm'] at w1; omega, fun i hi => ?_⟩
      rw [w2 i (by rw [hm']; omega), hpres i hi]
    | createNode =>
      obtain ⟨_, wf', hbbv, hm', hpres⟩ := createNode_spec wf (by omega)
      have hrun : PiggyList.runOp (h, st) Op.createNode =
          ((st.createNode h).1, (st.createNode h).2.1) := rfl
      rw [hrun]
      obtain ⟨w1, w2⟩ := ih (st.createNode h).1 (st.createNode h).2.1 wf'
        (by rw [hm']; omega) (fun op hop => hnc op (List.mem_cons_of_mem _ hop))
      refine ⟨by rw [hm'] at w1; omega, fun i hi => ?_⟩
      rw [w2 i (by rw [hm']; omega), hpres i hi]
    | clear =>
      exact absurd rfl (hnc Op.clear (List.mem_cons_self _ _))

/-- C2: stability.  Run any sequential operations `ops1` from a fresh
`PiggyList`, then `append v`, then any further `append`/`createNode`
operations `ops2`: the `append` returns the index `size()` had at that
moment, and `get` at that index still returns `v` after all of `ops2` —
growth never relocates a stored element. -/
theorem append_stability {T : Type} (bb : Nat) (hbb : bb ≤ 30)
    (ops1 ops2 : List (Op T)) (v : T)
    (hnc2 : ∀ op ∈ ops2, op ≠ Op.clear)
    (hlen : ops1.length + 1 + ops2.length ≤ 2 ^ 30) :
    let s1 := PiggyList.runOps (Heap.empty T, PiggyList.init T bb) ops1
    let r := s1.2.append s1.1 v
    let s2 := PiggyList.runOps (r.1, r.2.1) ops2
    r.2.2 = s1.2.size ∧ s2.2.get s2.1 r.2.2 = some v := by
  intro s1 r s2
  obtain ⟨wf1, hbb1, hm1⟩ := runOps_WF ops1 (Heap.empty T) (PiggyList.init T bb)
    (init_WF bb hbb) (show 0 + ops1.length ≤ 2 ^ 30 by omega)
  have hm1' : (PiggyList.runOps (Heap.empty T, PiggyList.init T bb) ops1).2.m_size
      ≤ ops1.length := by
    have h0 : (PiggyList.init T bb).m_size = 0 := rfl
    omega
  obtain ⟨hidx, wf2, hbb2, hm2, hget, _, _, _⟩ := append_spec wf1 (by omega) v
  obtain ⟨w1, w2⟩ := runOps_preserve_get ops2 _ _ wf2 (by rw [hm2]; omega) hnc2
  refine ⟨hidx, ?_⟩
  have hfin := w2
    (PiggyList.runOps (Heap.empty T, PiggyList.init T bb) ops1).2.m_size
    (by rw [hm2]; omega)
  rw [hget] at hfin
  exact hfin

/-- C2 witness: with the default base size, a single `append 7` to a fresh
list returns index 0 and reads back as 7. -/
theorem append_stability_witness :
    (16 ≤ 30 ∧ (∀ op ∈ ([] : List (Op Nat)), op ≠ Op.clear) ∧
      ([] : List (Op Nat)).length + 1 + ([] : List (Op Nat)).length ≤ 2 ^ 30) ∧
    (let s1 := PiggyList.runOps (Heap.empty Nat, PiggyList.init Nat 16) []
     let r := s1.2.append s1.1 7
     let s2 := PiggyList.runOps (r.1, r.2.1) []
     r.2.2 = s1.2.size ∧ s2.2.get s2.1 r.2.2 = some 7) :=
  ⟨⟨by norm_num, by simp, by norm_num⟩,
    append_stability 16 (by norm_num) [] [] 7 (by simp) (by norm_num)⟩

theorem runOps_append_list {T : Type} (s : Heap T × PiggyList T)
    (l1 l2 : List (Op T)) :
    PiggyList.runOps s (l1 ++ l2) = PiggyList.runOps (PiggyList.runOps s l1) l2 :=
  List.foldl_append _ _ _ _

/-- A run of `append`s that fits in the current capacity only advances
`m_size`. -/
theorem runAppends_nogrow {T : Type} (vals : List T) :
    ∀ (h : Heap T) (st : PiggyList T), PiggyList.WF h st →
      st.m_size + vals.length ≤ 2 ^ 30 →
      st.m_size + vals.length ≤ st.container_size →
      (PiggyList.runOps (h, st) (vals.map Op.append)).2 =
        { st with m_size := st.m_size + vals.length } ∧
      PiggyList.WF (PiggyList.runOps (h, st) (vals.map Op.append)).1
        (PiggyList.runOps (h, st) (vals.map Op.append)).2 := by
  induction vals with
  | nil =>
    intro h st wf _ _
    exact ⟨rfl, wf⟩
  | cons w ws ih =>
    intro h st wf hb hcap
    simp only [List.length_cons] at hb hcap
    simp only [List.map_cons]
    have hstep : PiggyList.runOps (h, st) (Op.append w :: ws.map Op.append) =
        PiggyList.runOps ((st.append h w).1, (st.append h w).2.1)
          (ws.map Op.append) := rfl
    rw [hstep]
    obtain ⟨_, wf', _, hm', _, _, hng, _⟩ := append_spec wf (by omega) w
    have hst' : (st.append h w).2.1 = { st with m_size := st.m_size + 1 } :=
      hng (by omega)
    obtain ⟨ih1, ih2⟩ := ih (st.append h w).1 (st.append h w).2.1 wf'
      (by rw [hm']; omega)
      (by rw [hm', hst']; dsimp only; omega)
    refine ⟨?_, ih2⟩
    rw [ih1, hst']
    dsimp only
    simp only [List.length_cons]
    have harith : st.m_size + 1 + ws.length = st.m_size + (ws.length + 1) := by
      omega
    rw [harith]

/-- C4: growth correctness.  Appending exactly `B + 1` elements to a fresh
`PiggyList` with base size `B = 2 ^ BLOCKBITS` allocates exactly two blocks —
block 0 of `B` elements and block 1 of `2B` elements — `size()` reports
`B + 1`, and the capacity is `3B`. -/
theorem growth_correct {T : Type} (bb : Nat) (hbb : bb ≤ 29) (vals : List T)
    (hlen : vals.length = 2 ^ bb + 1) :
    (PiggyList.runOps (Heap.empty T, PiggyList.init T bb)
      (vals.map Op.append)).2.num_containers = 2 ∧
    (PiggyList.runOps (Heap.empty T, PiggyList.init T bb)
      (vals.map Op.append)).2.size = 2 ^ bb + 1 ∧
    (PiggyList.runOps (Heap.empty T, PiggyList.init T bb)
      (vals.map Op.append)).2.container_size = 3 * 2 ^ bb ∧
    (∃ a b, (PiggyList.runOps (Heap.empty T, PiggyList.init T bb)
        (vals.map Op.append)).2.blockLookupTable 0 = some a ∧
      (PiggyList.runOps (Heap.empty T, PiggyList.init T bb)
        (vals.map Op.append)).1.mem a = some b ∧
      b.len = 2 ^ bb) ∧
    (∃ a b, (PiggyList.runOps (Heap.empty T, PiggyList.init T bb)
        (vals.map Op.append)).2.blockLookupTable 1 = some a ∧
      (PiggyList.runOps (Heap.empty T, PiggyList.init T bb)
        (vals.map Op.append)).1.mem a = some b ∧
      b.len = 2 * 2 ^ bb) := by
  show
    (let r := PiggyList.runOps (Heap.empty T, PiggyList.init T bb)
        (vals.map Op.append);
      r.2.num_containers = 2 ∧ r.2.size = 2 ^ bb + 1 ∧
      r.2.container_size = 3 * 2 ^ bb ∧
      (∃ a b, r.2.blockLookupTable 0 = some a ∧ r.1.mem a = some b ∧
        b.len = 2 ^ bb) ∧
      (∃ a b, r.2.blockLookupTable 1 = some a ∧ r.1.mem a = some b ∧
        b.len = 2 * 2 ^ bb))
  intro r
  have hBpos : (1:ℕ) ≤ 2 ^ bb := Nat.one_le_two_pow
  have hBsmall : (2:ℕ) ^ bb ≤ 2 ^ 29 := Nat.pow_le_pow_right (by norm_num) hbb
  have hmod : mod64 (1 <<< bb) = 2 ^ bb := by
    rw [Nat.shiftLeft_eq, one_mul,
      mod64_eq_of_lt (Nat.pow_lt_pow_right (by norm_num) (by omega))]
  -- split the value list as first :: mid ++ [last]
  cases vals with
  | nil => simp at hlen
  | cons w0 rest =>
    simp only [List.length_cons] at hlen
    rcases List.eq_nil_or_concat rest with hrest | ⟨mid, wlast, hrest⟩
    · rw [hrest] at hlen
      simp at hlen
    · subst hrest
      have hmid : mid.length = 2 ^ bb - 1 := by
        simp only [List.concat_eq_append, List.length_append, List.length_cons,
          List.length_nil] at hlen ⊢
        omega
      -- phase 1: the first append allocates block 0
      have wf0 := @init_WF T bb (by omega)
      obtain ⟨_, wf1, hbb1, hm1, _, _, _, hg1⟩ := append_spec wf0
        (show (PiggyList.init T bb).m_size + 1 ≤ 2 ^ 30 by
          show 0 + 1 ≤ 2 ^ 30
          norm_num) w0
      have hst1 := hg1 (show (PiggyList.init T bb).container_size <
          (PiggyList.init T bb).m_size + 1 from by
        show (0:ℕ) < 0 + 1
        omega)
      have hst1' : ((PiggyList.init T bb).append (Heap.empty T) w0).2.1 =
          { BLOCKBITS := bb, num_containers := 1, allocsize := 2 * 2 ^ bb,
            container_size := 2 ^ bb, m_size := 1,
            blockLookupTable := Function.update (fun _ => none) 0 (some 0) } := by
        rw [hst1]
        simp only [PiggyList.init, Heap.empty, hmod]
        norm_num
      -- phase 2: the next B-1 appends fit in block 0
      obtain ⟨hst2, wf2⟩ := runAppends_nogrow mid
        (((PiggyList.init T bb).append (Heap.empty T) w0)).1
        (((PiggyList.init T bb).append (Heap.empty T) w0)).2.1 wf1
        (by rw [hst1']; dsimp only; omega)
        (by rw [hst1']; dsimp only; omega)
      rw [hst1'] at hst2
      dsimp only at hst2
      have h1m : 1 + mid.length = 2 ^ bb := by omega
      rw [h1m] at hst2
      -- phase 3: the last append allocates block 1
      obtain ⟨_, wf3, hbb3, hm3, _, _, _, hg3⟩ := append_spec wf2
        (by rw [hst1', hst2]; dsimp only; omega) wlast
      have hst3 := hg3 (by rw [hst1', hst2]; dsimp only; omega)
      rw [hst1'] at hst3 wf3 hbb3
      rw [hst2] at hst3 wf3 hbb3
      dsimp only at hst3
      have harith1 : (2:ℕ) ^ bb + 2 * 2 ^ bb = 3 * 2 ^ bb := by ring
      have harith2 : (2:ℕ) * (2 * 2 ^ bb) = 4 * 2 ^ bb := by ring
      rw [harith1, harith2] at hst3
      -- assemble the final state
      have hr : r =
          ((({ BLOCKBITS := bb, num_containers := 1, allocsize := 2 * 2 ^ bb,
               container_size := 2 ^ bb, m_size := 2 ^ bb,
               blockLookupTable :=
                 Function.update (fun _ => none) 0 (some 0) } : PiggyList T).append
            (PiggyList.runOps
              ((((PiggyList.init T bb).append (Heap.empty T) w0)).1,
                { BLOCKBITS := bb, num_containers := 1, allocsize := 2 * 2 ^ bb,
                  container_size := 2 ^ bb, m_size := 1,
                  blockLookupTable := Function.update (fun _ => none) 0 (some 0) })
              (mid.map Op.append)).1 wlast).1,
          (({ BLOCKBITS := bb, num_containers := 1, allocsize := 2 * 2 ^ bb,
               container_size := 2 ^ bb, m_size := 2 ^ bb,
               blockLookupTable :=
                 Function.update (fun _ => none) 0 (some 0) } : PiggyList T).append
            (PiggyList.runOps
              ((((PiggyList.init T bb).append (Heap.empty T) w0)).1,
                { BLOCKBITS := bb, num_containers := 1, allocsize := 2 * 2 ^ bb,
                  container_size := 2 ^ bb, m_size := 1,
                  blockLookupTable := Function.update (fun _ => none) 0 (some 0) })
              (mid.map Op.append)).1 wlast).2.1) := by
        show PiggyList.runOps (Heap.empty T, PiggyList.init T bb)
          (List.map Op.append (w0 :: mid.concat wlast)) = _
        rw [List.concat_eq_append]
        have hsplit : List.map Op.append (w0 :: (mid ++ [wlast])) =
            (Op.append w0 :: List.map Op.append mid) ++ [Op.append wlast] := by
          simp
        rw [hsplit, runOps_append_list]
        have hfirst : PiggyList.runOps (Heap.empty T, PiggyList.init T bb)
            (Op.append w0 :: List.map Op.append mid) =
          PiggyList.runOps
            ((((PiggyList.init T bb).append (Heap.empty T) w0)).1,
              (((PiggyList.init T bb).append (Heap.empty T) w0)).2.1)
            (List.map Op.append mid) := rfl
        rw [hfirst, hst1']
        show (((PiggyList.runOps
            ((((PiggyList.init T bb).append (Heap.empty T) w0)).1,
              { BLOCKBITS := bb, num_containers := 1, allocsize := 2 * 2 ^ bb,
                container_size := 2 ^ bb, m_size := 1,
                blockLookupTable := Function.update (fun _ => none) 0 (some 0) })
            (mid.map Op.append)).2.append
          (PiggyList.runOps
            ((((PiggyList.init T bb).append (Heap.empty T) w0)).1,
              { BLOCKBITS := bb, num_containers := 1, allocsize := 2 * 2 ^ bb,
                container_size := 2 ^ bb, m_size := 1,
                blockLookupTable := Function.update (fun _ => none) 0 (some 0) })
            (mid.map Op.append)).1 wlast).1,
          ((PiggyList.runOps
            ((((PiggyList.init T bb).append (Heap.empty T) w0)).1,
              { BLOCKBITS := bb, num_containers := 1, allocsize := 2 * 2 ^ bb,
                container_size := 2 ^ bb, m_size := 1,
                blockLookupTable := Function.update (fun _ => none) 0 (some 0) })
            (mid.map Op.append)).2.append
          (PiggyList.runOps
            ((((PiggyList.init T bb).append (Heap.empty T) w0)).1,
              { BLOCKBITS := bb, num_containers := 1, allocsize := 2 * 2 ^ bb,
                container_size := 2 ^ bb, m_size := 1,
                blockLookupTable := Function.update (fun _ => none) 0 (some 0) })
            (mid.map Op.append)).1 wlast).2.1) = _
        rw [hst2]
      rw [hr]
      have h0lt : 0 <
          (({ BLOCKBITS := bb, num_containers := 1, allocsize := 2 * 2 ^ bb,
              container_size := 2 ^ bb, m_size := 2 ^ bb,
              blockLookupTable :=
                Function.update (fun _ => none) 0 (some 0) } : PiggyList T).append
        (PiggyList.runOps
          ((((PiggyList.init T bb).append (Heap.empty T) w0)).1,
            { BLOCKBITS := bb, num_containers := 1, allocsize := 2 * 2 ^ bb,
              container_size := 2 ^ bb, m_size := 1,
              blockLookupTable := Function.update (fun _ => none) 0 (some 0) })
          (mid.map Op.append)).1 wlast).2.1.num_containers := by
        rw [hst3]
        show (0:ℕ) < 1 + 1
        omega
      have h1lt : 1 <
          (({ BLOCKBITS := bb, num_containers := 1, allocsize := 2 * 2 ^ bb,
              container_size := 2 ^ bb, m_size := 2 ^ bb,
              blockLookupTable :=
                Function.update (fun _ => none) 0 (some 0) } : PiggyList T).append
        (PiggyList.runOps
          ((((PiggyList.init T bb).append (Heap.empty T) w0)).1,
            { BLOCKBITS := bb, num_containers := 1, allocsize := 2 * 2 ^ bb,
              container_size := 2 ^ bb, m_size := 1,
              blockLookupTable := Function.update (fun _ => none) 0 (some 0) })
          (mid.map Op.append)).1 wlast).2.1.num_containers := by
        rw [hst3]
        show (1:ℕ) < 1 + 1
        omega
      have hbbeq :
          (({ BLOCKBITS := bb, num_containers := 1, allocsize := 2 * 2 ^ bb,
              container_size := 2 ^ bb, m_size := 2 ^ bb,
              blockLookupTable :=
                Function.update (fun _ => none) 0 (some 0) } : PiggyList T).append
        (PiggyList.runOps
          ((((PiggyList.init T bb).append (Heap.empty T) w0)).1,
            { BLOCKBITS := bb, num_containers := 1, allocsize := 2 * 2 ^ bb,
              container_size := 2 ^ bb, m_size := 1,
              blockLookupTable := Function.update (fun _ => none) 0 (some 0) })
          (mid.map Op.append)).1 wlast).2.1.BLOCKBITS = bb := by
        rw [hst3]
      refine ⟨by rw [hst3], by show _ = 2 ^ bb + 1; rw [hst3]; rfl, by rw [hst3], ?_, ?_⟩
      · obtain ⟨a, ha, _, b, hbmem, hlen⟩ := wf3.htable 0 h0lt
        refine ⟨a, b, ha, hbmem, ?_⟩
        rw [hlen, hbbeq]
        simp
      · obtain ⟨a, ha, _, b, hbmem, hlen⟩ := wf3.htable 1 h1lt
        refine ⟨a, b, ha, hbmem, ?_⟩
        rw [hlen, hbbeq]
        ring

/-- C4 witness at the default base size: appending `2 ^ 16 + 1` zeros. -/
theorem growth_correct_witness :
    (16 ≤ 29 ∧ (List.replicate 65537 (0:Nat)).length = 2 ^ 16 + 1) ∧
    (let r := PiggyList.runOps (Heap.empty Nat, PiggyList.init Nat 16)
        ((List.replicate 65537 (0:Nat)).map Op.append)
     r.2.num_containers = 2 ∧ r.2.size = 2 ^ 16 + 1 ∧
     r.2.container_size = 3 * 2 ^ 16 ∧
     (∃ a b, r.2.blockLookupTable 0 = some a ∧ r.1.mem a = some b ∧
       b.len = 2 ^ 16) ∧
     (∃ a b, r.2.blockLookupTable 1 = some a ∧ r.1.mem a = some b ∧
       b.len = 2 * 2 ^ 16)) :=
  ⟨⟨by norm_num, by norm_num [List.length_replicate]⟩,
    growth_correct 16 (by norm_num) _ (by norm_num [List.length_replicate])⟩

/-- C9: capacity invariant.  After every finite sequence of sequential
`append`/`createNode`/`clear` operations on a fresh `PiggyList`, the capacity
counter dominates the logical size, equals `B * (2 ^ num_containers - 1)`, and
is exactly the summed capacity of the `num_containers` live blocks (block `s`
holding `B * 2 ^ s` elements). -/
theorem capacity_invariant {T : Type} (bb : Nat) (hbb : bb ≤ 30)
    (ops : List (Op T)) (hlen : ops.length ≤ 2 ^ 30) :
    let r := PiggyList.runOps (Heap.empty T, PiggyList.init T bb) ops
    r.2.m_size ≤ r.2.container_size ∧
    r.2.container_size = 2 ^ bb * (2 ^ r.2.num_containers - 1) ∧
    (∀ s, s < r.2.num_containers → ∃ a, r.2.blockLookupTable s = some a ∧
      ∃ b, r.1.mem a = some b ∧ b.len = 2 ^ bb * 2 ^ s) := by
  intro r
  obtain ⟨wf, hbbe, _⟩ := runOps_WF ops (Heap.empty T) (PiggyList.init T bb)
    (init_WF bb hbb) (show 0 + ops.length ≤ 2 ^ 30 by omega)
  have hb2 : (PiggyList.runOps (Heap.empty T, PiggyList.init T bb) ops).2.BLOCKBITS
      = bb := hbbe
  refine ⟨wf.hm, ?_, ?_⟩
  · have hc := wf.hcap
    rw [hb2] at hc
    exact hc
  · intro s hs
    obtain ⟨a, ha, _, b, hbm, hblen⟩ := wf.htable s hs
    refine ⟨a, ha, b, hbm, ?_⟩
    rw [hblen, hb2]

/-- C9 witness: the empty operation sequence at the default base size. -/
theorem capacity_invariant_witness :
    (16 ≤ 30 ∧ ([] : List (Op Nat)).length ≤ 2 ^ 30) ∧
    (let r := PiggyList.runOps (Heap.empty Nat, PiggyList.init Nat 16) []
     r.2.m_size ≤ r.2.container_size ∧
     r.2.container_size = 2 ^ 16 * (2 ^ r.2.num_containers - 1) ∧
     (∀ s, s < r.2.num_containers → ∃ a, r.2.blockLookupTable s = some a ∧
       ∃ b, r.1.mem a = some b ∧ b.len = 2 ^ 16 * 2 ^ s)) :=
  ⟨⟨by norm_num, by norm_num⟩, capacity_invariant 16 (by norm_num) [] (by norm_num)⟩

/-! ## Copy-constructor lemmas -/

theorem Heap.WF_allocWith {T : Type} {h : Heap T} (wf : h.WF) (len : Nat)
    (cells : Nat → Option T) : (h.allocWith len cells).1.WF := by
  intro a ha
  have hne : a ≠ h.next := by
    simp only [Heap.allocWith] at ha
    omega
  simp only [Heap.allocWith]
  rw [Function.update_noteq hne]
  apply wf
  simp only [Heap.allocWith] at ha
  omega

theorem Heap.allocWith_mem_self {T : Type} (h : Heap T) (len : Nat)
    (cells : Nat → Option T) :
    (h.allocWith len cells).1.mem h.next = some ⟨len, cells⟩ := by
  simp only [Heap.allocWith]
  exact Function.update_same _ _ _

theorem Heap.allocWith_mem_ne {T : Type} (h : Heap T) (len : Nat)
    (cells : Nat → Option T) {a : Nat} (hne : a ≠ h.next) :
    (h.allocWith len cells).1.mem a = h.mem a := by
  simp only [Heap.allocWith]
  exact Function.update_noteq hne _ _

/-- A write leaves every address other than its target untouched. -/
theorem writeCell_mem_ne {T : Type} {h : Heap T} {tbl : Nat → Option Nat}
    {bb i : Nat} {v : T} {x : Nat}
    (hx : ∀ a, tbl (getLoc bb i).1 = some a → x ≠ a) :
    (writeCell h tbl bb i v).mem x = h.mem x := by
  simp only [writeCell]
  cases ht : tbl (getLoc bb i).1 with
  | none => rfl
  | some a =>
    dsimp only
    cases h.mem a with
    | none => rfl
    | some b =>
      dsimp only
      by_cases hoff : (getLoc bb i).2 < b.len
      · simp only [if_pos hoff]
        exact Function.update_noteq (hx a ht) _ _
      · simp only [if_neg hoff]

/-- Full characterisation of the `PiggyList` block-copy loop: it allocates
`count` fresh consecutive blocks, preserves the existing heap, leaves table
slots outside `[i, i + count)` at their previous value, and fills slot
`i + k` with a block of `cSize * 2 ^ k` elements copied from source slot
`i + k`. -/
theorem copyBlocks_spec {T : Type} (srcTbl : Nat → Option Nat) :
    ∀ (count i cSize : Nat) (h : Heap T) (tbl : Nat → Option Nat),
      h.WF →
      cSize * 2 ^ count < 2 ^ 64 →
      (∀ k, k < count → ∀ a, srcTbl (i + k) = some a → a < h.next) →
      (PiggyList.copyBlocks srcTbl count i cSize h tbl).1.next = h.next + count ∧
      (∀ a, a < h.next →
        (PiggyList.copyBlocks srcTbl count i cSize h tbl).1.mem a = h.mem a) ∧
      (PiggyList.copyBlocks srcTbl count i cSize h tbl).1.WF ∧
      (∀ s, s < i ∨ i + count ≤ s →
        (PiggyList.copyBlocks srcTbl count i cSize h tbl).2.1 s = tbl s) ∧
      (∀ k, k < count →
        (PiggyList.copyBlocks srcTbl count i cSize h tbl).2.1 (i + k) =
          some (h.next + k) ∧
        (PiggyList.copyBlocks srcTbl count i cSize h tbl).1.mem (h.next + k) =
          some ⟨cSize * 2 ^ k,
            memcpyCells (match srcTbl (i + k) with
              | none => none
              | some a => h.mem a) (cSize * 2 ^ k)⟩) := by
  intro count
  induction count with
  | zero =>
    intro i c h tbl hwf _ _
    refine ⟨rfl, fun a _ => rfl, hwf, fun s _ => rfl, fun k hk => absurd hk (by omega)⟩
  | succ n ih =>
    intro i c h tbl hwf hb hsrc
    have hpow : (2:ℕ) ^ (n + 1) = 2 * 2 ^ n := by ring
    have h2n : (1:ℕ) ≤ 2 ^ n := Nat.one_le_two_pow
    have hc2 : mod64 (c <<< 1) = 2 * c := by
      rw [Nat.shiftLeft_eq]
      have he : c * 2 ^ 1 = 2 * c := by ring
      rw [he, mod64_eq_of_lt]
      calc 2 * c ≤ 2 * c * 2 ^ n := Nat.le_mul_of_pos_right _ (by positivity)
        _ = c * 2 ^ (n + 1) := by rw [hpow]; ring
        _ < 2 ^ 64 := hb
    have hstep : PiggyList.copyBlocks srcTbl (n + 1) i c h tbl =
        PiggyList.copyBlocks srcTbl n (i + 1) (mod64 (c <<< 1))
          (h.allocWith c (memcpyCells (match srcTbl i with
            | none => none
            | some a => h.mem a) c)).1
          (Function.update tbl i (some (h.allocWith c (memcpyCells
            (match srcTbl i with
              | none => none
              | some a => h.mem a) c)).2)) := rfl
    rw [hstep, hc2]
    have hwf2 : ((h.allocWith c (memcpyCells (match srcTbl i with
        | none => none
        | some a => h.mem a) c)).1).WF := Heap.WF_allocWith hwf _ _
    have hnext2 : ((h.allocWith c (memcpyCells (match srcTbl i with
        | none => none
        | some a => h.mem a) c)).1).next = h.next + 1 := rfl
    obtain ⟨r1, r2, r3, r4, r5⟩ := ih (i + 1) (2 * c) _ _ hwf2
      (by
        rw [hpow] at hb
        have hco : 2 * c * 2 ^ n = c * (2 * 2 ^ n) := by ring
        omega)
      (by
        intro k hk a ha
        have := hsrc (k + 1) (by omega) a (by
          have he : i + (k + 1) = i + 1 + k := by omega
          rw [he]
          exact ha)
        rw [hnext2]
        omega)
    refine ⟨?_, ?_, r3, ?_, ?_⟩
    · rw [r1, hnext2]
      omega
    · intro a ha
      rw [r2 a (by rw [hnext2]; omega)]
      exact Heap.allocWith_mem_ne h _ _ (by omega)
    · intro s hs
      rw [r4 s (by omega)]
      exact Function.update_noteq (by omega) _ _
    · intro k hk
      cases k with
      | zero =>
        constructor
        · have he : i + 0 = i := by omega
          rw [he, r4 i (by omega), Function.update_same]
          rfl
        · have he0 : h.next + 0 = h.next := by omega
          have he1 : i + 0 = i := by omega
          rw [he0, he1]
          have hmem := r2 h.next (by rw [hnext2]; omega)
          rw [hmem]
          have hself := Heap.allocWith_mem_self h c (memcpyCells
            (match srcTbl i with
              | none => none
              | some a => h.mem a) c)
          rw [hself]
          have hc0 : c * 2 ^ 0 = c := by ring
          rw [hc0]
      | succ j =>
        have hj : j < n := by omega
        obtain ⟨t1, t2⟩ := r5 j hj
        constructor
        · have he : i + (j + 1) = i + 1 + j := by omega
          rw [he, t1, hnext2]
          have he2 : h.next + 1 + j = h.next + (j + 1) := by omega
          rw [he2]
        · have he2 : h.next + (j + 1) = h.next + 1 + j := by omega
          rw [he2, ← hnext2, t2]
          have he3 : 2 * c * 2 ^ j = c * 2 ^ (j + 1) := by ring
          have he4 : i + 1 + j = i + (j + 1) := by omega
          rw [he3, he4]
          cases hsv : srcTbl (i + (j + 1)) with
          | none => rfl
          | some a =>
            dsimp only
            rw [Heap.allocWith_mem_ne h _ _
              (by
                have := hsrc (j + 1) (by omega) a hsv
                omega)]

/-! ## The copy-constructor assertion -/

theorem copyBlocks_cSize {T : Type} (srcTbl : Nat → Option Nat) :
    ∀ (count i cSize : Nat) (h : Heap T) (tbl : Nat → Option Nat),
      cSize * 2 ^ count < 2 ^ 64 →
      (PiggyList.copyBlocks srcTbl count i cSize h tbl).2.2 =
        cSize * 2 ^ count := by
  intro count
  induction count with
  | zero =>
    intro i c h tbl _
    simp [PiggyList.copyBlocks]
  | succ n ih =>
    intro i c h tbl hb
    have hpow : (2:ℕ) ^ (n + 1) = 2 * 2 ^ n := by ring
    have h2n : (1:ℕ) ≤ 2 ^ n := Nat.one_le_two_pow
    have hc2 : mod64 (c <<< 1) = 2 * c := by
      rw [Nat.shiftLeft_eq]
      have he : c * 2 ^ 1 = 2 * c := by ring
      rw [he, mod64_eq_of_lt]
      calc 2 * c ≤ 2 * c * 2 ^ n := Nat.le_mul_of_pos_right _ (by positivity)
        _ = c * 2 ^ (n + 1) := by rw [hpow]; ring
        _ < 2 ^ 64 := hb
    simp only [PiggyList.copyBlocks]
    rw [hc2, ih (i + 1) (2 * c) _ _ (by
      rw [hpow] at hb
      have hco : 2 * c * 2 ^ n = c * (2 * 2 ^ n) := by ring
      omega)]
    rw [hpow]
    ring

/-- C10 (code bug): the self-check `assert((cSize >> 1) == container_size)` in
the `PiggyList` copy constructor (line 160) is wrong.  It fails on a freshly
constructed list (0 blocks: `cSize` never doubles, and `B >> 1 = 2 ^ 15 ≠ 0`),
and on every well-formed source it holds exactly when `num_containers = 1` —
in particular it also fails for every source with two or more blocks
(`cSize >> 1 = B * 2 ^ (n-1)` but `container_size = B * (2 ^ n - 1)`), so
copying a reachable container aborts whenever assertions are enabled. -/
theorem copy_assert_bug :
    ((PiggyList.init Nat 16).copyCtor (Heap.empty Nat)).2.2 = false ∧
    (∀ (T : Type) (h : Heap T) (st : PiggyList T), PiggyList.WF h st →
      st.m_size ≤ 2 ^ 30 → 1 ≤ st.BLOCKBITS →
      (((st.copyCtor h).2.2 = true) ↔ st.num_containers = 1)) := by
  constructor
  · rfl
  · intro T h st wf hsmall hbb1
    obtain ⟨hB, hB1, hcapb, hal, hal2, hnc⟩ := WF_bounds wf hsmall
    have hBS : st.BLOCKSIZE = 2 ^ st.BLOCKBITS := by
      rw [PiggyList.BLOCKSIZE, Nat.shiftLeft_eq, one_mul,
        mod64_eq_of_lt (Nat.pow_lt_pow_right (by norm_num) (by have := wf.hbb; omega))]
    have hlt : 2 ^ st.BLOCKBITS * 2 ^ st.num_containers < 2 ^ 64 := by
      rw [← wf.halloc]
      omega
    have hcs : (PiggyList.copyBlocks st.blockLookupTable st.num_containers 0
        st.BLOCKSIZE h (fun _ => none)).2.2 =
        2 ^ st.BLOCKBITS * 2 ^ st.num_containers := by
      rw [copyBlocks_cSize st.blockLookupTable st.num_containers 0 st.BLOCKSIZE h
        (fun _ => none) (by rw [hBS]; exact hlt)]
      rw [hBS]
    show ((PiggyList.copyBlocks st.blockLookupTable st.num_containers 0
        st.BLOCKSIZE h (fun _ => none)).2.2 >>> 1 == st.container_size) = true ↔
      st.num_containers = 1
    rw [hcs, beq_iff_eq, wf.hcap, Nat.shiftRight_eq_div_pow, pow_one]
    obtain ⟨k, hk⟩ : ∃ k, st.BLOCKBITS = k + 1 := ⟨st.BLOCKBITS - 1, by omega⟩
    constructor
    · intro heq
      cases hnc0 : st.num_containers with
      | zero =>
        rw [hnc0] at heq
        simp only [pow_zero, mul_one] at heq
        rw [hk] at heq
        have hpow : (2:ℕ) ^ (k + 1) = 2 * 2 ^ k := by ring
        rw [hpow, Nat.mul_div_cancel_left _ (by norm_num)] at heq
        have : (1:ℕ) ≤ 2 ^ k := Nat.one_le_two_pow
        omega
      | succ n =>
        rw [hnc0] at heq
        have hpow : (2:ℕ) ^ (n + 1) = 2 * 2 ^ n := by ring
        have hmul : 2 ^ st.BLOCKBITS * 2 ^ (n + 1) =
            2 * (2 ^ st.BLOCKBITS * 2 ^ n) := by rw [hpow]; ring
        rw [hmul, Nat.mul_div_cancel_left _ (by norm_num)] at heq
        have hcancel : (2:ℕ) ^ n = 2 ^ (n + 1) - 1 :=
          Nat.eq_of_mul_eq_mul_left (Nat.pow_pos (by norm_num)) heq
        rw [hpow] at hcancel
        have h2n : (1:ℕ) ≤ 2 ^ n := Nat.one_le_two_pow
        have hn0 : (2:ℕ) ^ n = 1 := by omega
        have : n = 0 := by
          by_contra hcon
          have h1 : (2:ℕ) ^ 1 ≤ 2 ^ n := Nat.pow_le_pow_right (by norm_num) (by omega)
          simp at h1
          omega
        omega
    · intro heq
      rw [heq]
      have hpow : (2:ℕ) ^ 1 = 2 := by norm_num
      rw [hpow]
      have hmul : 2 ^ st.BLOCKBITS * 2 = 2 * 2 ^ st.BLOCKBITS := by ring
      rw [hmul, Nat.mul_div_cancel_left _ (by norm_num)]
      norm_num

/-- C10 witness: a fresh default list has 0 containers and its copy fails the
assertion. -/
theorem copy_assert_bug_witness :
    (PiggyList.WF (Heap.empty Nat) (PiggyList.init Nat 16) ∧
      (PiggyList.init Nat 16).m_size ≤ 2 ^ 30 ∧
      1 ≤ (PiggyList.init Nat 16).BLOCKBITS) ∧
    ((((PiggyList.init Nat 16).copyCtor (Heap.empty Nat)).2.2 = true) ↔
      (PiggyList.init Nat 16).num_containers = 1) :=
  ⟨⟨init_WF 16 (by norm_num), by norm_num [PiggyList.init], by norm_num [PiggyList.init]⟩,
    copy_assert_bug.2 Nat (Heap.empty Nat) (PiggyList.init Nat 16)
      (init_WF 16 (by norm_num)) (by norm_num [PiggyList.init])
      (by norm_num [PiggyList.init])⟩

/-! ## Concurrent uniqueness of reserved indices -/

theorem fetchAddEvents_snd {α : Type} (order : List α) :
    ∀ c, c + order.length < 2 ^ 64 →
      (fetchAddEvents c order).map Prod.snd =
        (List.range order.length).map (c + ·) := by
  induction order with
  | nil => intro c _; rfl
  | cons t ts ih =>
    intro c hc
    simp only [List.length_cons] at hc
    have hm : mod64 (c + 1) = c + 1 := mod64_eq_of_lt (by omega)
    simp only [fetchAddEvents, List.map_cons]
    rw [hm, ih (c + 1) (by omega)]
    simp only [List.length_cons, List.range_succ_eq_map, List.map_cons, List.map_map]
    refine List.cons_eq_cons.mpr ⟨by omega, List.map_congr_left fun a _ => ?_⟩
    simp only [Function.comp_apply]
    omega

/-- C3: every interleaving of `N` concurrent `append`/`createNode` calls hands
out exactly the indices `0, ..., N-1`, in the order of their atomic fetch-add
events on `m_size`, with no duplicates and no gaps. -/
theorem append_reserve_indices_unique {α : Type} (order : List α)
    (h : order.length < 2 ^ 64) :
    (fetchAddEvents 0 order).map Prod.snd = List.range order.length ∧
    ((fetchAddEvents 0 order).map Prod.snd).Nodup := by
  have e := fetchAddEvents_snd order 0 (by omega)
  have e2 : (List.range order.length).map (0 + ·) = List.range order.length := by
    simp
  rw [e, e2]
  exact ⟨rfl, List.nodup_range _⟩

/-- C3 witness: three interleaved calls receive the indices 0, 1, 2. -/
theorem append_reserve_indices_unique_witness :
    ([0, 1, 2] : List Nat).length < 2 ^ 64 ∧
    ((fetchAddEvents 0 ([0, 1, 2] : List Nat)).map Prod.snd =
        List.range ([0, 1, 2] : List Nat).length ∧
      ((fetchAddEvents 0 ([0, 1, 2] : List Nat)).map Prod.snd).Nodup) :=
  ⟨by norm_num, append_reserve_indices_unique [0, 1, 2] (by norm_num)⟩

/-! ## Insertion counting for `RandomInsertPiggyList` -/

theorem insertAt_numElements {T : Type} (st : RandomInsertPiggyList T)
    (h : Heap T) (i : Nat) (v : T) :
    ((st.insertAt h i v).2).numElements = mod64 (st.numElements + 1) := by
  simp only [RandomInsertPiggyList.insertAt, RandomInsertPiggyList.ensureBlock]
  split <;> rfl

theorem runInserts_size {T : Type} (calls : List (Nat × T)) :
    ∀ (h : Heap T) (st : RandomInsertPiggyList T),
      st.numElements + calls.length < 2 ^ 64 →
      (RandomInsertPiggyList.runInserts (h, st) calls).2.numElements =
        st.numElements + calls.length := by
  induction calls with
  | nil => intro h st _; rfl
  | cons c cs ih =>
    intro h st hsz
    simp only [List.length_cons] at hsz
    have hstep : RandomInsertPiggyList.runInserts (h, st) (c :: cs) =
        RandomInsertPiggyList.runInserts (st.insertAt h c.1 c.2) cs := rfl
    rw [hstep]
    have hone : (st.insertAt h c.1 c.2).2.numElements = st.numElements + 1 := by
      rw [insertAt_numElements, mod64_eq_of_lt (by omega)]
    have := ih (st.insertAt h c.1 c.2).1
      (st.insertAt h c.1 c.2).2 (by rw [hone]; omega)
    rw [Prod.mk.eta] at this
    rw [this, hone]
    simp only [List.length_cons]
    omega

/-- C6: `size()` of a `RandomInsertPiggyList` counts `insertAt` calls, not
distinct indices: after any sequence of sequential `insertAt` calls it has
grown by the number of calls, and in particular inserting twice at the same
index increments it by 2. -/
theorem insertAt_counts_insertions {T : Type} (h : Heap T)
    (st : RandomInsertPiggyList T) (calls : List (Nat × T))
    (hsz : st.size + calls.length < 2 ^ 64) :
    (RandomInsertPiggyList.runInserts (h, st) calls).2.size =
      st.size + calls.length ∧
    (∀ idx v w, st.size + 2 < 2 ^ 64 →
      (RandomInsertPiggyList.runInserts (h, st) [(idx, v), (idx, w)]).2.size =
        st.size + 2) :=
  ⟨runInserts_size calls h st hsz,
    fun idx v w h2 => runInserts_size [(idx, v), (idx, w)] h st h2⟩

/-- C6 witness: two inserts at index 5 of a fresh default container take
`size()` from 0 to 2. -/
theorem insertAt_counts_insertions_witness :
    ((RandomInsertPiggyList.init Nat 16).size + ([(5, 7), (5, 9)] : List (Nat × Nat)).length < 2 ^ 64) ∧
    ((RandomInsertPiggyList.runInserts (Heap.empty Nat, RandomInsertPiggyList.init Nat 16)
        [(5, 7), (5, 9)]).2.size = (RandomInsertPiggyList.init Nat 16).size + 2 ∧
      (∀ idx v w, (RandomInsertPiggyList.init Nat 16).size + 2 < 2 ^ 64 →
        (RandomInsertPiggyList.runInserts (Heap.empty Nat, RandomInsertPiggyList.init Nat 16)
          [(idx, v), (idx, w)]).2.size = (RandomInsertPiggyList.init Nat 16).size + 2)) :=
  ⟨by norm_num [RandomInsertPiggyList.size, RandomInsertPiggyList.init],
    insertAt_counts_insertions (Heap.empty Nat) (RandomInsertPiggyList.init Nat 16)
      [(5, 7), (5, 9)]
      (by norm_num [RandomInsertPiggyList.size, RandomInsertPiggyList.init])⟩

/-! ## Clear resets -/

/-- C8: after `clear()` on any `PiggyList`, `size()` is 0, the next `append`
returns index 0, and the container count, capacity and next allocation size
are back at their initial values (`0`, `0`, `BLOCKSIZE`), so growth restarts
from the base block size. -/
theorem clear_resets {T : Type} (h : Heap T) (st : PiggyList T) (v : T) :
    (st.clear h).2.size = 0 ∧
    ((st.clear h).2.append (st.clear h).1 v).2.2 = 0 ∧
    (st.clear h).2.num_containers = 0 ∧
    (st.clear h).2.container_size = 0 ∧
    (st.clear h).2.allocsize = st.BLOCKSIZE :=
  ⟨rfl, rfl, rfl, rfl, rfl⟩

/-! ## Duplication fidelity -/

/-- What the `PiggyList` copy constructor builds: fresh consecutive blocks
above the original heap, the original heap untouched, table slot `s` of the
copy pointing at the `s`-th fresh block, which holds `B * 2 ^ s` elements
copied from the original's slot-`s` block. -/
theorem copyCtor_spec {T : Type} {h : Heap T} {st : PiggyList T}
    (wf : PiggyList.WF h st) (hsmall : st.m_size ≤ 2 ^ 30) :
    (st.copyCtor h).1.next = h.next + st.num_containers ∧
    (∀ a, a < h.next → (st.copyCtor h).1.mem a = h.mem a) ∧
    (st.copyCtor h).1.WF ∧
    (∀ s, st.num_containers ≤ s →
      (st.copyCtor h).2.1.blockLookupTable s = none) ∧
    (∀ s, s < st.num_containers →
      (st.copyCtor h).2.1.blockLookupTable s = some (h.next + s) ∧
      (st.copyCtor h).1.mem (h.next + s) =
        some ⟨2 ^ st.BLOCKBITS * 2 ^ s,
          memcpyCells (match st.blockLookupTable s with
            | none => none
            | some a => h.mem a) (2 ^ st.BLOCKBITS * 2 ^ s)⟩) := by
  obtain ⟨hB, hB1, hcapb, hal, hal2, hnc⟩ := WF_bounds wf hsmall
  have hBS : st.BLOCKSIZE = 2 ^ st.BLOCKBITS := by
    rw [PiggyList.BLOCKSIZE, Nat.shiftLeft_eq, one_mul,
      mod64_eq_of_lt (Nat.pow_lt_pow_right (by norm_num) (by have := wf.hbb; omega))]
  have hsmall64 : st.BLOCKSIZE * 2 ^ st.num_containers < 2 ^ 64 := by
    rw [hBS, ← wf.halloc]
    omega
  have hsrc : ∀ k, k < st.num_containers → ∀ a,
      st.blockLookupTable (0 + k) = some a → a < h.next := by
    intro k hk a hka
    obtain ⟨a', ha', hlt, -⟩ := wf.htable k hk
    rw [Nat.zero_add, ha'] at hka
    cases hka
    exact hlt
  obtain ⟨r1, r2, r3, r4, r5⟩ := copyBlocks_spec st.blockLookupTable
    st.num_containers 0 st.BLOCKSIZE h (fun _ => none) wf.hheap hsmall64 hsrc
  refine ⟨r1, r2, r3, ?_, ?_⟩
  · intro s hs
    exact r4 s (Or.inr (by omega))
  · intro s hs
    obtain ⟨t1, t2⟩ := r5 s hs
    rw [Nat.zero_add] at t1 t2
    refine ⟨t1, ?_⟩
    rw [← hBS]
    exact t2

/-- A copied `PiggyList` returns the original's value at every stored index. -/
theorem piggy_copy_get {T : Type} {h : Heap T} {st : PiggyList T}
    (wf : PiggyList.WF h st) (hsmall : st.m_size ≤ 2 ^ 30) {i : Nat}
    (hi : i < st.m_size) :
    (st.copyCtor h).2.1.get (st.copyCtor h).1 i = st.get h i := by
  obtain ⟨rn, rold, rwf, rhigh, rlow⟩ := copyCtor_spec wf hsmall
  have hiC : i < st.container_size := lt_of_lt_of_le hi wf.hm
  obtain ⟨hi32, hslot, hmain⟩ := loc_slot_lt wf hsmall hiC
  obtain ⟨a, ha, -, -, -, -⟩ := wf.htable _ hslot
  obtain ⟨hanext, b, hb, hlen, hoff⟩ := hmain a ha
  obtain ⟨t1, t2⟩ := rlow _ hslot
  show readCell (st.copyCtor h).1 (st.copyCtor h).2.1.blockLookupTable
      st.BLOCKBITS i = readCell h st.blockLookupTable st.BLOCKBITS i
  simp only [readCell]
  rw [t1, ha]
  dsimp only
  rw [t2, hb]
  dsimp only
  rw [ha]
  dsimp only
  rw [hb]
  simp only [memcpyCells]
  have hoff2 : (getLoc st.BLOCKBITS i).2 <
      2 ^ st.BLOCKBITS * 2 ^ (getLoc st.BLOCKBITS i).1 := by omega
  rw [if_pos hoff2, if_pos hoff2, if_pos hoff]

/-- Writing anywhere into the copy leaves every stored value of the original
unchanged. -/
theorem piggy_copy_indep1 {T : Type} {h : Heap T} {st : PiggyList T}
    (wf : PiggyList.WF h st) (hsmall : st.m_size ≤ 2 ^ 30) (j : Nat) (v : T)
    {i : Nat} (hi : i < st.m_size) :
    st.get ((st.copyCtor h).2.1.writeAt (st.copyCtor h).1 j v) i = st.get h i := by
  obtain ⟨rn, rold, rwf, rhigh, rlow⟩ := copyCtor_spec wf hsmall
  have hiC : i < st.container_size := lt_of_lt_of_le hi wf.hm
  obtain ⟨hi32, hslot, hmain⟩ := loc_slot_lt wf hsmall hiC
  show readCell (writeCell (st.copyCtor h).1
      (st.copyCtor h).2.1.blockLookupTable st.BLOCKBITS j v)
      st.blockLookupTable st.BLOCKBITS i = readCell h st.blockLookupTable
      st.BLOCKBITS i
  rw [readCell_writeCell_of_ne (by
    intro a hRa hWa
    obtain ⟨halt, -⟩ := hmain a hRa
    rcases lt_or_ge (getLoc st.BLOCKBITS j).1 st.num_containers with hc | hc
    · obtain ⟨u1, -⟩ := rlow _ hc
      rw [u1] at hWa
      cases hWa
      omega
    · rw [rhigh _ hc] at hWa
      exact Option.noConfusion hWa)]
  refine readCell_congr_mem ?_
  intro a hRa
  obtain ⟨halt, -⟩ := hmain a hRa
  exact rold a halt

/-- Writing any stored index of the original leaves every stored value of
the copy unchanged. -/
theorem piggy_copy_indep2 {T : Type} {h : Heap T} {st : PiggyList T}
    (wf : PiggyList.WF h st) (hsmall : st.m_size ≤ 2 ^ 30) {j : Nat}
    (hj : j < st.m_size) (v : T) {i : Nat} (hi : i < st.m_size) :
    (st.copyCtor h).2.1.get (st.writeAt (st.copyCtor h).1 j v) i =
      (st.copyCtor h).2.1.get (st.copyCtor h).1 i := by
  obtain ⟨rn, rold, rwf, rhigh, rlow⟩ := copyCtor_spec wf hsmall
  have hiC : i < st.container_size := lt_of_lt_of_le hi wf.hm
  have hjC : j < st.container_size := lt_of_lt_of_le hj wf.hm
  obtain ⟨hi32, hslotI, hmainI⟩ := loc_slot_lt wf hsmall hiC
  obtain ⟨hj32, hslotJ, hmainJ⟩ := loc_slot_lt wf hsmall hjC
  show readCell (writeCell (st.copyCtor h).1 st.blockLookupTable
      st.BLOCKBITS j v) (st.copyCtor h).2.1.blockLookupTable st.BLOCKBITS i =
    readCell (st.copyCtor h).1 (st.copyCtor h).2.1.blockLookupTable
      st.BLOCKBITS i
  rw [readCell_writeCell_of_ne (by
    intro a hRa hWa
    obtain ⟨halt, -⟩ := hmainJ a hWa
    obtain ⟨u1, -⟩ := rlow _ hslotI
    rw [u1] at hRa
    cases hRa
    omega)]

/-- Full characterisation of the `RandomInsertPiggyList` block-copy loop:
fresh blocks are allocated above the original heap, the original heap is
preserved, table slots outside the scanned range keep their previous value,
a null source slot stays null, and a non-null source slot `s` points at a
fresh block of `INITIALBLOCKSIZE << s` elements copied from the source. -/
theorem ri_copyBlocks_spec {T : Type} (srcTbl : Nat → Option Nat) (ibs : Nat) :
    ∀ (count i : Nat) (h : Heap T) (tbl : Nat → Option Nat),
      h.WF →
      (∀ k, k < count → ∀ a, srcTbl (i + k) = some a → a < h.next) →
      h.next ≤ (RandomInsertPiggyList.copyBlocks srcTbl ibs count i h tbl).1.next ∧
      (∀ a, a < h.next →
        (RandomInsertPiggyList.copyBlocks srcTbl ibs count i h tbl).1.mem a =
          h.mem a) ∧
      (RandomInsertPiggyList.copyBlocks srcTbl ibs count i h tbl).1.WF ∧
      (∀ s, s < i ∨ i + count ≤ s →
        (RandomInsertPiggyList.copyBlocks srcTbl ibs count i h tbl).2 s = tbl s) ∧
      (∀ k, k < count →
        (srcTbl (i + k) = none →
          (RandomInsertPiggyList.copyBlocks srcTbl ibs count i h tbl).2 (i + k) =
            tbl (i + k)) ∧
        (∀ a, srcTbl (i + k) = some a →
          ∃ a',
            (RandomInsertPiggyList.copyBlocks srcTbl ibs count i h tbl).2 (i + k) =
              some a' ∧
            h.next ≤ a' ∧
            a' < (RandomInsertPiggyList.copyBlocks srcTbl ibs count i h tbl).1.next ∧
            (RandomInsertPiggyList.copyBlocks srcTbl ibs count i h tbl).1.mem a' =
              some ⟨mod64 (ibs <<< (i + k)),
                memcpyCells (h.mem a) (mod64 (ibs <<< (i + k)))⟩)) := by
  intro count
  induction count with
  | zero =>
    intro i h tbl hwf _
    exact ⟨le_refl _, fun a _ => rfl, hwf, fun s _ => rfl,
      fun k hk => absurd hk (by omega)⟩
  | succ n ih =>
    intro i h tbl hwf hsrc
    cases hsv : srcTbl i with
    | none =>
      have hstep : RandomInsertPiggyList.copyBlocks srcTbl ibs (n + 1) i h tbl =
          RandomInsertPiggyList.copyBlocks srcTbl ibs n (i + 1) h tbl := by
        simp only [RandomInsertPiggyList.copyBlocks, hsv]
      rw [hstep]
      obtain ⟨r1, r2, r3, r4, r5⟩ := ih (i + 1) h tbl hwf
        (fun k hk a ha => hsrc (k + 1) (by omega) a (by
          have he : i + (k + 1) = i + 1 + k := by omega
          rw [he]
          exact ha))
      refine ⟨r1, r2, r3, fun s hs => r4 s (by omega), ?_⟩
      intro k hk
      cases k with
      | zero =>
        constructor
        · intro _
          have he : i + 0 = i := by omega
          rw [he]
          exact r4 i (by omega)
        · intro a ha
          have he : i + 0 = i := by omega
          rw [he, hsv] at ha
          exact Option.noConfusion ha
      | succ j =>
        obtain ⟨u1, u2⟩ := r5 j (by omega)
        have he : i + (j + 1) = i + 1 + j := by omega
        constructor
        · intro hn
          rw [he] at hn ⊢
          exact u1 hn
        · intro a ha
          rw [he] at ha ⊢
          exact u2 a ha
    | some a =>
      have hstep : RandomInsertPiggyList.copyBlocks srcTbl ibs (n + 1) i h tbl =
          RandomInsertPiggyList.copyBlocks srcTbl ibs n (i + 1)
            (h.allocWith (mod64 (ibs <<< i))
              (memcpyCells (h.mem a) (mod64 (ibs <<< i)))).1
            (Function.update tbl i (some (h.allocWith (mod64 (ibs <<< i))
              (memcpyCells (h.mem a) (mod64 (ibs <<< i)))).2)) := by
        simp only [RandomInsertPiggyList.copyBlocks, hsv]
      rw [hstep]
      have hwf2 : ((h.allocWith (mod64 (ibs <<< i))
          (memcpyCells (h.mem a) (mod64 (ibs <<< i)))).1).WF :=
        Heap.WF_allocWith hwf _ _
      have hnext2 : ((h.allocWith (mod64 (ibs <<< i))
          (memcpyCells (h.mem a) (mod64 (ibs <<< i)))).1).next = h.next + 1 := rfl
      obtain ⟨r1, r2, r3, r4, r5⟩ := ih (i + 1) _ _ hwf2
        (by
          intro k hk a' ha'
          have := hsrc (k + 1) (by omega) a' (by
            have he : i + (k + 1) = i + 1 + k := by omega
            rw [he]
            exact ha')
          rw [hnext2]
          omega)
      refine ⟨?_, ?_, r3, ?_, ?_⟩
      · rw [hnext2] at r1
        omega
      · intro x hx
        rw [r2 x (by rw [hnext2]; omega)]
        exact Heap.allocWith_mem_ne h _ _ (by omega)
      · intro s hs
        rw [r4 s (by omega)]
        exact Function.update_noteq (by omega) _ _
      · intro k hk
        cases k with
        | zero =>
          constructor
          · intro hn
            have he : i + 0 = i := by omega
            rw [he, hsv] at hn
            exact Option.noConfusion hn
          · intro a' ha'
            have he : i + 0 = i := by omega
            rw [he] at ha' ⊢
            rw [hsv] at ha'
            cases ha'
            refine ⟨h.next, ?_, le_refl _, ?_, ?_⟩
            · rw [r4 i (by omega)]
              exact Function.update_same _ _ _
            · have hr1 := r1
              rw [hnext2] at hr1
              omega
            · rw [r2 h.next (by rw [hnext2]; omega)]
              exact Heap.allocWith_mem_self h _ _
        | succ j =>
          have he : i + (j + 1) = i + 1 + j := by omega
          constructor
          · intro hn
            obtain ⟨u1, -⟩ := r5 j (by omega)
            rw [he] at hn ⊢
            rw [u1 hn]
            exact Function.update_noteq (by omega) _ _
          · intro a' ha'
            have ha'lt : a' < h.next := hsrc (j + 1) (by omega) a' ha'
            obtain ⟨-, u2⟩ := r5 j (by omega)
            rw [he] at ha' ⊢
            obtain ⟨a'', w1, w2, w3, w4⟩ := u2 a' ha'
            refine ⟨a'', w1, ?_, w3, ?_⟩
            · rw [hnext2] at w2
              omega
            · rw [w4, Heap.allocWith_mem_ne h _ _ (by omega)]

/-- `insertAt` only ever writes to the freshly allocated block or to a block
the state's lookup table points at: every other live address is untouched. -/
theorem insertAt_mem_frame {T : Type} (st : RandomInsertPiggyList T) (h : Heap T)
    (j : Nat) (v : T) {x : Nat} (hx : x < h.next)
    (hnotbl : ∀ s a, st.blockLookupTable s = some a → x ≠ a) :
    ((st.insertAt h j v).1).mem x = h.mem x := by
  simp only [RandomInsertPiggyList.insertAt, RandomInsertPiggyList.ensureBlock]
  cases hb : st.blockLookupTable (mod64 (mod64 (63 + 2 ^ 64 -
      builtin_clzll (mod64 (j + st.INITIALBLOCKSIZE))) + 2 ^ 64 - st.BLOCKBITS)) with
  | some a0 =>
    dsimp only
    exact writeCell_mem_ne (fun a hta => hnotbl _ a hta)
  | none =>
    dsimp only
    rw [writeCell_mem_ne (by
      intro a hta
      by_cases hs : (getLoc st.BLOCKBITS j).1 = mod64 (mod64 (63 + 2 ^ 64 -
          builtin_clzll (mod64 (j + st.INITIALBLOCKSIZE))) + 2 ^ 64 - st.BLOCKBITS)
      · rw [hs, Function.update_same] at hta
        cases hta
        show x ≠ h.next
        omega
      · rw [Function.update_noteq hs] at hta
        exact hnotbl _ a hta)]
    exact Heap.alloc_mem_ne h _ (by omega)

/-- What the `RandomInsertPiggyList` copy constructor builds: a heap extending
the original, every copied slot pointing at a fresh block holding the
original block's elements, null slots staying null. -/
theorem ri_copyCtor_spec {T : Type} {h : Heap T} {st : RandomInsertPiggyList T}
    (wf : RandomInsertPiggyList.WF h st) :
    h.next ≤ (st.copyCtor h).1.next ∧
    (∀ a, a < h.next → (st.copyCtor h).1.mem a = h.mem a) ∧
    (st.copyCtor h).1.WF ∧
    (∀ s a', (st.copyCtor h).2.blockLookupTable s = some a' →
      h.next ≤ a' ∧ a' < (st.copyCtor h).1.next) ∧
    (∀ s, s < 64 →
      (st.blockLookupTable s = none →
        (st.copyCtor h).2.blockLookupTable s = none) ∧
      (∀ a, st.blockLookupTable s = some a →
        ∃ a', (st.copyCtor h).2.blockLookupTable s = some a' ∧
          (st.copyCtor h).1.mem a' =
            some ⟨mod64 (st.INITIALBLOCKSIZE <<< s),
              memcpyCells (h.mem a) (mod64 (st.INITIALBLOCKSIZE <<< s))⟩)) := by
  have hsrc : ∀ k, k < 64 → ∀ a, st.blockLookupTable (0 + k) = some a →
      a < h.next := by
    intro k _ a hka
    rw [Nat.zero_add] at hka
    obtain ⟨-, hlt, -⟩ := wf.htable k a hka
    exact hlt
  obtain ⟨r1, r2, r3, r4, r5⟩ := ri_copyBlocks_spec st.blockLookupTable
    st.INITIALBLOCKSIZE 64 0 h (fun _ => none) wf.hheap hsrc
  refine ⟨r1, r2, r3, ?_, ?_⟩
  · intro s a' ha'
    have ha2 : (RandomInsertPiggyList.copyBlocks st.blockLookupTable
        st.INITIALBLOCKSIZE 64 0 h (fun _ => none)).2 s = some a' := ha'
    rcases lt_or_ge s 64 with hs | hs
    · obtain ⟨c1, c2⟩ := r5 s hs
      rw [Nat.zero_add] at c1 c2
      cases ht : st.blockLookupTable s with
      | none =>
        rw [c1 ht] at ha2
        exact Option.noConfusion ha2
      | some a =>
        obtain ⟨a'', w1, w2, w3, -⟩ := c2 a ht
        rw [w1] at ha2
        cases ha2
        exact ⟨w2, w3⟩
    · rw [r4 s (by omega)] at ha2
      exact Option.noConfusion ha2
  · intro s hs
    obtain ⟨c1, c2⟩ := r5 s hs
    rw [Nat.zero_add] at c1 c2
    refine ⟨fun hn => c1 hn, ?_⟩
    intro a ha
    obtain ⟨a', w1, w2, w3, w4⟩ := c2 a ha
    exact ⟨a', w1, w4⟩

/-- A copied `RandomInsertPiggyList` returns the original's value at every
addressable index. -/
theorem ri_copy_get {T : Type} {h : Heap T} {st : RandomInsertPiggyList T}
    (wf : RandomInsertPiggyList.WF h st) {i : Nat}
    (hi : i + 2 ^ st.BLOCKBITS < 2 ^ 32) :
    (st.copyCtor h).2.get (st.copyCtor h).1 i = st.get h i := by
  obtain ⟨r1, r2, r3, rb, rlow⟩ := ri_copyCtor_spec wf
  have hibs : st.INITIALBLOCKSIZE = 2 ^ st.BLOCKBITS := by
    rw [RandomInsertPiggyList.INITIALBLOCKSIZE, Nat.shiftLeft_eq, one_mul,
      mod64_eq_of_lt (Nat.pow_lt_pow_right (by norm_num) (by have := wf.hbb; omega))]
  obtain ⟨hbbL, hs, ho, holt, hoge⟩ := getLoc_decomp hi
  have hB1 : (1:ℕ) ≤ 2 ^ st.BLOCKBITS := Nat.one_le_two_pow
  have hn0 : i + 2 ^ st.BLOCKBITS ≠ 0 := by omega
  have hlog : Nat.log2 (i + 2 ^ st.BLOCKBITS) < 32 := (Nat.log2_lt hn0).mpr hi
  have hslot64 : (getLoc st.BLOCKBITS i).1 < 64 := by
    rw [hs]
    omega
  obtain ⟨c1, c2⟩ := rlow _ hslot64
  show readCell (st.copyCtor h).1 (st.copyCtor h).2.blockLookupTable
      st.BLOCKBITS i = readCell h st.blockLookupTable st.BLOCKBITS i
  cases ht : st.blockLookupTable (getLoc st.BLOCKBITS i).1 with
  | none =>
    simp only [readCell]
    rw [c1 ht, ht]
  | some a =>
    obtain ⟨hs64, halt, b, hb, hlen⟩ := wf.htable _ a ht
    obtain ⟨a', e1, e2⟩ := c2 a ht
    have hlenval : mod64 (st.INITIALBLOCKSIZE <<< (getLoc st.BLOCKBITS i).1) =
        2 ^ st.BLOCKBITS * 2 ^ (getLoc st.BLOCKBITS i).1 := by
      rw [hibs, Nat.shiftLeft_eq, ← pow_add,
        mod64_eq_of_lt (Nat.pow_lt_pow_right (by norm_num)
          (by have := wf.hbb; omega)), pow_add]
    have hpowL : 2 ^ st.BLOCKBITS * 2 ^ (getLoc st.BLOCKBITS i).1 =
        2 ^ Nat.log2 (i + 2 ^ st.BLOCKBITS) := by
      rw [hs, ← pow_add]
      congr 1
      omega
    have hofflen : (getLoc st.BLOCKBITS i).2 <
        2 ^ st.BLOCKBITS * 2 ^ (getLoc st.BLOCKBITS i).1 := by omega
    have hoffb : (getLoc st.BLOCKBITS i).2 < b.len := by omega
    simp only [readCell]
    rw [e1, ht]
    dsimp only
    rw [e2, hb]
    dsimp only
    simp only [memcpyCells]
    rw [hlenval]
    rw [if_pos hofflen, if_pos hofflen, if_pos hoffb]

/-- Inserting anywhere into the copy leaves every value readable from the
original unchanged. -/
theorem ri_copy_indep1 {T : Type} {h : Heap T} {st : RandomInsertPiggyList T}
    (wf : RandomInsertPiggyList.WF h st) (j : Nat) (v : T) (i : Nat) :
    st.get ((st.copyCtor h).2.insertAt (st.copyCtor h).1 j v).1 i =
      st.get h i := by
  obtain ⟨r1, r2, r3, rb, rlow⟩ := ri_copyCtor_spec wf
  show readCell ((st.copyCtor h).2.insertAt (st.copyCtor h).1 j v).1
      st.blockLookupTable st.BLOCKBITS i =
    readCell h st.blockLookupTable st.BLOCKBITS i
  refine readCell_congr_mem ?_
  intro a ha
  obtain ⟨-, halt, -⟩ := wf.htable _ a ha
  rw [insertAt_mem_frame (st.copyCtor h).2 (st.copyCtor h).1 j v
    (show a < (st.copyCtor h).1.next by omega)
    (fun s a0 h0 => by have := rb s a0 h0; omega)]
  exact r2 a halt

/-- Inserting anywhere into the original leaves every value readable from the
copy unchanged. -/
theorem ri_copy_indep2 {T : Type} {h : Heap T} {st : RandomInsertPiggyList T}
    (wf : RandomInsertPiggyList.WF h st) (j : Nat) (v : T) (i : Nat) :
    (st.copyCtor h).2.get (st.insertAt (st.copyCtor h).1 j v).1 i =
      (st.copyCtor h).2.get (st.copyCtor h).1 i := by
  obtain ⟨r1, r2, r3, rb, rlow⟩ := ri_copyCtor_spec wf
  show readCell (st.insertAt (st.copyCtor h).1 j v).1
      (st.copyCtor h).2.blockLookupTable st.BLOCKBITS i =
    readCell (st.copyCtor h).1 (st.copyCtor h).2.blockLookupTable st.BLOCKBITS i
  refine readCell_congr_mem ?_
  intro a' ha'
  obtain ⟨hge, hlt⟩ := rb _ a' ha'
  exact insertAt_mem_frame st (st.copyCtor h).1 j v hlt
    (fun s a0 h0 => by
      obtain ⟨-, h0lt, -⟩ := wf.htable s a0 h0
      omega)

/-- A fresh `RandomInsertPiggyList` over the empty heap satisfies the
invariant. -/
theorem ri_init_WF (T : Type) (bb : Nat) (hbb : bb ≤ 30) :
    RandomInsertPiggyList.WF (Heap.empty T) (RandomInsertPiggyList.init T bb) := by
  refine ⟨hbb, fun a _ => rfl, ?_, ?_⟩
  · intro s a hsa
    exact Option.noConfusion hsa
  · intro s1 s2 a h1 h2
    exact Option.noConfusion h1

/-- C7: copying a populated container of trivially-copyable elements yields a
container with equal `size()` and equal `get(i)` for every stored index, with
independently owned storage: mutating the copy never changes a value readable
from the original, and mutating the original never changes a value readable
from the copy.  Proved for both `PiggyList` (under the sequential invariant,
at indices below `m_size`, with sizes in the exact-arithmetic regime) and
`RandomInsertPiggyList` (at all addressable indices; mutation independence at
every index and insertion point). -/
theorem duplication_fidelity {T : Type} :
    (∀ (h : Heap T) (st : PiggyList T), PiggyList.WF h st →
      st.m_size ≤ 2 ^ 30 →
      (st.copyCtor h).2.1.size = st.size ∧
      (∀ i, i < st.size →
        (st.copyCtor h).2.1.get (st.copyCtor h).1 i = st.get h i) ∧
      (∀ j v i, i < st.size →
        st.get ((st.copyCtor h).2.1.writeAt (st.copyCtor h).1 j v) i =
          st.get h i) ∧
      (∀ j v i, j < st.size → i < st.size →
        (st.copyCtor h).2.1.get (st.writeAt (st.copyCtor h).1 j v) i =
          (st.copyCtor h).2.1.get (st.copyCtor h).1 i)) ∧
    (∀ (h : Heap T) (st : RandomInsertPiggyList T),
      RandomInsertPiggyList.WF h st →
      (st.copyCtor h).2.size = st.size ∧
      (∀ i, i + 2 ^ st.BLOCKBITS < 2 ^ 32 →
        (st.copyCtor h).2.get (st.copyCtor h).1 i = st.get h i) ∧
      (∀ j v i,
        st.get ((st.copyCtor h).2.insertAt (st.copyCtor h).1 j v).1 i =
          st.get h i) ∧
      (∀ j v i,
        (st.copyCtor h).2.get (st.insertAt (st.copyCtor h).1 j v).1 i =
          (st.copyCtor h).2.get (st.copyCtor h).1 i)) := by
  constructor
  · intro h st wf hsmall
    exact ⟨rfl,
      fun i hi => piggy_copy_get wf hsmall hi,
      fun j v i hi => piggy_copy_indep1 wf hsmall j v hi,
      fun j v i hj hi => piggy_copy_indep2 wf hsmall hj v hi⟩
  · intro h st wf
    exact ⟨rfl,
      fun i hi => ri_copy_get wf hi,
      fun j v i => ri_copy_indep1 wf j v i,
      fun j v i => ri_copy_indep2 wf j v i⟩

/-- C7 witness: both halves applied to fresh default containers over the
empty heap. -/
theorem duplication_fidelity_witness :
    (PiggyList.WF (Heap.empty Nat) (PiggyList.init Nat 16) ∧
      (PiggyList.init Nat 16).m_size ≤ 2 ^ 30 ∧
      RandomInsertPiggyList.WF (Heap.empty Nat)
        (RandomInsertPiggyList.init Nat 16)) ∧
    ((PiggyList.init Nat 16).copyCtor (Heap.empty Nat)).2.1.size =
      (PiggyList.init Nat 16).size ∧
    ((RandomInsertPiggyList.init Nat 16).copyCtor (Heap.empty Nat)).2.size =
      (RandomInsertPiggyList.init Nat 16).size ∧
    (∀ j v i,
      (RandomInsertPiggyList.init Nat 16).get
        (((RandomInsertPiggyList.init Nat 16).copyCtor (Heap.empty Nat)).2.insertAt
          ((RandomInsertPiggyList.init Nat 16).copyCtor (Heap.empty Nat)).1 j v).1 i =
        (RandomInsertPiggyList.init Nat 16).get (Heap.empty Nat) i) :=
  ⟨⟨init_WF 16 (by norm_num), by norm_num [PiggyList.init],
      ri_init_WF Nat 16 (by norm_num)⟩,
    (duplication_fidelity.1 (Heap.empty Nat) (PiggyList.init Nat 16)
      (init_WF 16 (by norm_num)) (by norm_num [PiggyList.init])).1,
    (duplication_fidelity.2 (Heap.empty Nat) (RandomInsertPiggyList.init Nat 16)
      (ri_init_WF Nat 16 (by norm_num))).1,
    (duplication_fidelity.2 (Heap.empty Nat) (RandomInsertPiggyList.init Nat 16)
      (ri_init_WF Nat 16 (by norm_num))).2.2.1⟩

end Souffle
